import Mathlib

/-!
Verification development for the epub2txt core (src/epub2txt.py).

The Python source is shallowly embedded: XML documents are modelled as
already-parsed element trees (`XmlElem`), HTML documents as already-parsed
node trees (`HNode`), and the zip archive as an association list of named
entries carrying both parse views.  All string processing (path resolution,
percent-decoding, whitespace normalisation) is translated to executable
char-list functions.  Theorems at the end settle the frozen claims.
-/

namespace Epub2Txt

/-! ### Basic character and string helpers -/

/-- Whitespace set used by Python `str.strip()` / `str.split()` and by the
`re` module's `\s` class on `str` patterns (Unicode whitespace). -/
def isPySpace (c : Char) : Bool :=
  let n := c.toNat
  (n = 32) || (9 ≤ n && n ≤ 13) || (28 ≤ n && n ≤ 31) || n = 0x85 || n = 0xa0 ||
    n = 0x1680 || (0x2000 ≤ n && n ≤ 0x200a) || n = 0x2028 || n = 0x2029 ||
    n = 0x202f || n = 0x205f || n = 0x3000

/-- ASCII lowercasing of one character, as applied by `str.lower()` to the
ASCII range (the inputs we model never hit the non-ASCII special cases). -/
def lowerChar (c : Char) : Char :=
  if 'A' ≤ c && c ≤ 'Z' then Char.ofNat (c.toNat + 32) else c

def lowerStr (s : String) : String := String.mk (s.data.map lowerChar)

/-- List form of `str.endswith` for a single suffix. -/
def endsWithCL (l suf : List Char) : Bool :=
  l.reverse.take suf.length == suf.reverse

def endsWithStr (s suf : String) : Bool := endsWithCL s.data suf.data

/-- Test of `path.lower().endswith(('.html', '.htm', '.xhtml'))`. -/
def htmlExt (s : String) : Bool :=
  let l := (lowerStr s).data
  endsWithCL l ".html".data || endsWithCL l ".htm".data || endsWithCL l ".xhtml".data

/-- Python `str.strip()` (both ends, Python whitespace). -/
def pyStrip (s : String) : String :=
  String.mk (((s.data.dropWhile isPySpace).reverse.dropWhile isPySpace).reverse)

def pySplitGo : List Char → List Char → List String
  | [], cur => if cur = [] then [] else [String.mk cur]
  | c :: r, cur =>
    if isPySpace c then
      (if cur = [] then pySplitGo r [] else String.mk cur :: pySplitGo r [])
    else pySplitGo r (cur ++ [c])

/-- Python `str.split()` with no argument: split on whitespace runs,
dropping empty pieces. -/
def pySplit (s : String) : List String := pySplitGo s.data []

/-- Python `" ".join(parts)`. -/
def joinSpace : List String → String
  | [] => ""
  | [x] => x
  | x :: xs => x ++ " " ++ joinSpace xs

def repeatStr (s : String) : Nat → String
  | 0 => ""
  | n + 1 => s ++ repeatStr s n

/-! ### Percent-decoding (urllib.parse.unquote with utf-8 / errors replace) -/

def hexVal (c : Char) : Option Nat :=
  if '0' ≤ c && c ≤ '9' then some (c.toNat - 48)
  else if 'a' ≤ c && c ≤ 'f' then some (c.toNat - 87)
  else if 'A' ≤ c && c ≤ 'F' then some (c.toNat - 55)
  else none

def replChar : Char := Char.ofNat 0xFFFD

def isContByte (b : Nat) : Bool := 0x80 ≤ b && b ≤ 0xbf

/-- Allowed second byte for a three-byte lead (CPython utf-8 decoder). -/
def cont2ok (lead b : Nat) : Bool :=
  if lead = 0xe0 then 0xa0 ≤ b && b ≤ 0xbf
  else if lead = 0xed then 0x80 ≤ b && b ≤ 0x9f
  else isContByte b

/-- Allowed second byte for a four-byte lead (CPython utf-8 decoder). -/
def cont3ok (lead b : Nat) : Bool :=
  if lead = 0xf0 then 0x90 ≤ b && b ≤ 0xbf
  else if lead = 0xf4 then 0x80 ≤ b && b ≤ 0x8f
  else isContByte b

/-- UTF-8 decoding with `errors='replace'` (one U+FFFD per maximal invalid
subpart, as CPython does). -/
def utf8DecodeReplace : List Nat → List Char
  | [] => []
  | b :: r =>
    if b ≤ 0x7f then Char.ofNat b :: utf8DecodeReplace r
    else if 0xc2 ≤ b && b ≤ 0xdf then
      match r with
      | b1 :: r1 =>
        if isContByte b1 then
          Char.ofNat ((b - 0xc0) * 64 + (b1 - 0x80)) :: utf8DecodeReplace r1
        else replChar :: utf8DecodeReplace (b1 :: r1)
      | [] => [replChar]
    else if 0xe0 ≤ b && b ≤ 0xef then
      match r with
      | b1 :: r1 =>
        if cont2ok b b1 then
          match r1 with
          | b2 :: r2 =>
            if isContByte b2 then
              Char.ofNat ((b - 0xe0) * 4096 + (b1 - 0x80) * 64 + (b2 - 0x80)) ::
                utf8DecodeReplace r2
            else replChar :: utf8DecodeReplace (b2 :: r2)
          | [] => [replChar]
        else replChar :: utf8DecodeReplace (b1 :: r1)
      | [] => [replChar]
    else if 0xf0 ≤ b && b ≤ 0xf4 then
      match r with
      | b1 :: r1 =>
        if cont3ok b b1 then
          match r1 with
          | b2 :: r2 =>
            if isContByte b2 then
              match r2 with
              | b3 :: r3 =>
                if isContByte b3 then
                  Char.ofNat ((b - 0xf0) * 262144 + (b1 - 0x80) * 4096 +
                      (b2 - 0x80) * 64 + (b3 - 0x80)) :: utf8DecodeReplace r3
                else replChar :: utf8DecodeReplace (b3 :: r3)
              | [] => [replChar]
            else replChar :: utf8DecodeReplace (b2 :: r2)
          | [] => [replChar]
        else replChar :: utf8DecodeReplace (b1 :: r1)
      | [] => [replChar]
    else replChar :: utf8DecodeReplace r

/-- Scanner for `urllib.parse.unquote`: ASCII characters (percent escapes
decoded to bytes, other ASCII as their own byte) accumulate into `acc` and
are utf-8 decoded at chunk boundaries; non-ASCII characters pass through
verbatim, exactly as unquote's ASCII-run splitting behaves. -/
def unquoteGo : List Char → List Nat → List Char
  | [], acc => utf8DecodeReplace acc
  | '%' :: h1 :: h2 :: r, acc =>
    (match hexVal h1, hexVal h2 with
     | some a, some b => unquoteGo r (acc ++ [16 * a + b])
     | _, _ => unquoteGo (h1 :: h2 :: r) (acc ++ [37]))
  | c :: r, acc =>
    if c.toNat ≤ 0x7f then unquoteGo r (acc ++ [c.toNat])
    else utf8DecodeReplace acc ++ c :: unquoteGo r []

/-- Model of `urllib.parse.unquote` with the default utf-8 / replace. -/
def unquote (s : String) : String :=
  if s.data.contains '%' then String.mk (unquoteGo s.data []) else s

/-! ### posixpath helpers -/

/-- Python `str.split(sep)` for a one-character separator, on char lists. -/
def splitOnCL (sep : Char) (l : List Char) : List (List Char) :=
  l.foldr
    (fun c acc =>
      if c = sep then [] :: acc
      else (c :: acc.headD []) :: acc.tailD [])
    [[]]

def intercalateCL (sep : Char) : List (List Char) → List Char
  | [] => []
  | [x] => x
  | x :: xs => x ++ sep :: intercalateCL sep xs

/-- Model of `posixpath.normpath`. -/
def normpath (p : String) : String :=
  if p = "" then "." else
  let cs := p.data
  let initialSlashes : Nat :=
    if cs.take 1 = ['/'] then
      (if cs.take 2 = ['/', '/'] ∧ cs.take 3 ≠ ['/', '/', '/'] then 2 else 1)
    else 0
  let comps := splitOnCL '/' cs
  let newComps := comps.foldl
    (fun acc comp =>
      if comp = [] ∨ comp = ['.'] then acc
      else if comp ≠ ['.', '.'] ∨ (initialSlashes = 0 ∧ acc = []) ∨
          (acc ≠ [] ∧ acc.getLast? = some ['.', '.']) then acc ++ [comp]
      else if acc ≠ [] then acc.dropLast else acc)
    []
  let res := List.replicate initialSlashes '/' ++ intercalateCL '/' newComps
  if res = [] then "." else String.mk res

/-- Model of the two-argument `posixpath.join`. -/
def pjoin (a b : String) : String :=
  if b.data.take 1 = ['/'] then b
  else if a = "" ∨ endsWithStr a "/" then a ++ b
  else a ++ "/" ++ b

/-- Model of `posixpath.dirname`. -/
def pdirname (p : String) : String :=
  let cs := p.data
  let tailLen := (cs.reverse.takeWhile (fun c => c ≠ '/')).length
  let head := cs.take (cs.length - tailLen)
  if head ≠ [] ∧ head.any (fun c => c ≠ '/') then
    String.mk ((head.reverse.dropWhile (fun c => c = '/')).reverse)
  else String.mk head

/-- Model of `resolve_zip_path` from the source. -/
def resolve_zip_path (base_dir href : String) : String :=
  if href = "" then "" else
  let href := unquote href
  let href := String.mk (href.data.takeWhile (fun c => c ≠ '#'))
  if href = "" then "" else
  if base_dir ≠ "" then normpath (pjoin base_dir href)
  else normpath href

/-- Model of `split_toc_href` from the source. -/
def split_toc_href (base_dir href : String) : String × String :=
  if href = "" then ("", "") else
  let cs := href.data
  let pre := cs.takeWhile (fun c => c ≠ '#')
  let pathPart := String.mk pre
  let fragment := if pre.length = cs.length then "" else String.mk (cs.drop (pre.length + 1))
  (resolve_zip_path base_dir pathPart,
   if fragment ≠ "" then unquote fragment else "")

/-! ### XML element trees (the result of `xml.etree.ElementTree.fromstring`)

Namespaced tags are stored ElementTree-style as a single string
`\x7buri\x7dlocal` (braces written with escapes). -/

inductive XmlElem where
  | mk (tag : String) (attrs : List (String × String)) (text : Option String)
      (children : List XmlElem)

def XmlElem.tag : XmlElem → String
  | .mk t _ _ _ => t

def XmlElem.attrs : XmlElem → List (String × String)
  | .mk _ a _ _ => a

def XmlElem.text : XmlElem → Option String
  | .mk _ _ t _ => t

def XmlElem.children : XmlElem → List XmlElem
  | .mk _ _ _ cs => cs

/-- Model of `elem.attrib.get(k)` (first binding wins; XML attributes are
unique anyway). -/
def xattr (e : XmlElem) (k : String) : Option String :=
  (e.attrs.find? (fun p => p.1 = k)).map (fun p => p.2)

mutual

/-- Strict descendants of an element in document (pre-) order, as iterated
by ElementTree `.//` paths. -/
def xmlDescendants : XmlElem → List XmlElem
  | .mk _ _ _ cs => xmlDescList cs

def xmlDescList : List XmlElem → List XmlElem
  | [] => []
  | c :: cs => c :: (xmlDescendants c ++ xmlDescList cs)

end

/-- Python `tag.split('\x7d')[-1]` (namespace-agnostic local name). -/
def localName (e : XmlElem) : String :=
  String.mk ((splitOnCL '\x7d' e.tag.data).getLastD [])

/-- Python `s.strip('\x7b')`. -/
def stripBraces (s : String) : String :=
  String.mk (((s.data.dropWhile (fun c => c = '\x7b')).reverse.dropWhile
    (fun c => c = '\x7b')).reverse)

/-! ### Package document parser (`parse_opf`) -/

/-- State of the manifest loop in `parse_opf`: the manifest dict is modelled
by its lookup function (`manifest_items[id] = href` overwrites). -/
structure OpfAcc where
  manifest : String → Option String
  nav : Option String
  ncx : Option String

/-- Predicate: the manifest item has non-empty id and href (Python
`if not item_id or not href: continue`). -/
def itemValid (it : XmlElem) : Bool :=
  (xattr it "id").getD "" ≠ "" && (xattr it "href").getD "" ≠ ""

def itemHref (it : XmlElem) : String := (xattr it "href").getD ""

def itemId (it : XmlElem) : String := (xattr it "id").getD ""

/-- Predicate for `properties and 'nav' in properties.split()`. -/
def itemIsNav (it : XmlElem) : Bool :=
  let props := (xattr it "properties").getD ""
  props ≠ "" && (pySplit props).contains "nav"

/-- Predicate for `media_type == 'application/x-dtbncx+xml'`. -/
def itemIsNcx (it : XmlElem) : Bool :=
  (xattr it "media-type").getD "" = "application/x-dtbncx+xml"

/-- One iteration of the manifest loop in `parse_opf`. -/
def opfStep (acc : OpfAcc) (it : XmlElem) : OpfAcc :=
  if itemValid it then
    { manifest := fun k => if k = itemId it then some (itemHref it) else acc.manifest k
      nav := if itemIsNav it then some (itemHref it) else acc.nav
      ncx := if itemIsNcx it then some (itemHref it) else acc.ncx }
  else acc

/-- ElementTree tag for a `pkg:`-qualified path component: braced when the
package root is namespaced, bare otherwise. -/
def pkgTag (hasNs : Bool) (ns lname : String) : String :=
  if hasNs then "\x7b" ++ ns ++ "\x7d" ++ lname else lname

/-- Namespace URI of the package root, Python
`root.tag.split('\x7d')[0].strip('\x7b')`. -/
def opfNs (root : XmlElem) : String :=
  stripBraces (String.mk ((splitOnCL '\x7d' root.tag.data).headD []))

/-- Manifest item elements in document order
(`.//pkg:manifest/pkg:item` resp. `.//manifest/item`). -/
def manifestItems (root : XmlElem) : List XmlElem :=
  let hasNs := root.tag.data.contains '\x7d'
  let mTag := pkgTag hasNs (opfNs root) "manifest"
  let iTag := pkgTag hasNs (opfNs root) "item"
  ((xmlDescendants root).filter (fun (e : XmlElem) => e.tag = mTag)).flatMap
    (fun (m : XmlElem) => m.children.filter (fun (e : XmlElem) => e.tag = iTag))

/-- The first `spine` element (`root.find(".//pkg:spine")` resp. bare). -/
def spineElemOf (root : XmlElem) : Option XmlElem :=
  let hasNs := root.tag.data.contains '\x7d'
  (xmlDescendants root).find? (fun (e : XmlElem) => e.tag = pkgTag hasNs (opfNs root) "spine")

/-- Model of `parse_opf`: returns the resolved spine paths and the resolved
navigation-target path. -/
def parse_opf (root : XmlElem) (opfPath : String) : List String × Option String :=
  let hasNs := root.tag.data.contains '\x7d'
  let ns := opfNs root
  let acc := (manifestItems root).foldl opfStep ⟨fun _ => none, none, none⟩
  let spine? := spineElemOf root
  let ncxAndRefs :=
    match spine? with
    | none => (acc.ncx, ([] : List String))
    | some sp =>
      let tocId := (xattr sp "toc").getD ""
      let ncx2 := if tocId ≠ "" ∧ (acc.manifest tocId).isSome
                  then acc.manifest tocId else acc.ncx
      let refs := (xmlDescendants sp).filter (fun (e : XmlElem) => e.tag = pkgTag hasNs ns "itemref")
      (ncx2, refs.filterMap (fun ir => (xattr ir "idref").bind acc.manifest))
  let opfDir := pdirname opfPath
  let fullPaths := ncxAndRefs.2.filterMap (fun h =>
      let p := resolve_zip_path opfDir h
      if p = "" then none else some p)
  let tocHref := acc.nav <|> ncxAndRefs.1
  let tocPath := match tocHref with
    | some h => if h = "" then none else some (resolve_zip_path opfDir h)
    | none => none
  (fullPaths, tocPath)

/-! ### Table-of-contents entries and the NCX parser -/

structure TocEntry where
  path : String
  fragment : String
  title : String
  depth : Nat
deriving DecidableEq, Repr

mutual

/-- Model of `walk_nav_point` in `parse_ncx_toc_entries`. -/
def walkNavPoint (tocDir : String) : XmlElem → Nat → List TocEntry
  | .mk tg at_ tx cs, depth =>
    let np : XmlElem := .mk tg at_ tx cs
    let content := np.children.find? (fun c => localName c = "content")
    let src := (content.bind (fun c => xattr c "src")).getD ""
    let title :=
      match np.children.find? (fun c => localName c = "navLabel") with
      | some nl =>
        match nl.children.find? (fun c => localName c = "text") with
        | some te =>
          match te.text with
          | some t => if t = "" then "" else pyStrip t
          | none => ""
        | none => ""
      | none => ""
    let pf := split_toc_href tocDir src
    (if pf.1 ≠ "" then [⟨pf.1, pf.2, title, depth⟩] else []) ++
      walkNavPointKids tocDir cs (depth + 1)

def walkNavPointKids (tocDir : String) : List XmlElem → Nat → List TocEntry
  | [], _ => []
  | c :: cs, d =>
    (if localName c = "navPoint" then walkNavPoint tocDir c d else []) ++
      walkNavPointKids tocDir cs d

end

/-- Model of `parse_ncx_toc_entries`; the `Option XmlElem` argument is the
result of `ET.fromstring` (`none` models `ET.ParseError`). -/
def parse_ncx_toc_entries (parsed : Option XmlElem) (tocDir : String) : List TocEntry :=
  match parsed with
  | none => []
  | some root =>
    match (root :: xmlDescendants root).find? (fun e => localName e = "navMap") with
    | none => []
    | some nm => walkNavPointKids tocDir nm.children 1

/-! ### HTML node trees (the result of BeautifulSoup parsing)

`HNode.text` models a `NavigableString`; `HNode.elem` a `Tag` (names already
lowercased by `html.parser`, as the source relies on). -/

inductive HNode where
  | text (s : String)
  | elem (name : String) (attrs : List (String × String)) (children : List HNode)

def HNode.children : HNode → List HNode
  | .text _ => []
  | .elem _ _ cs => cs

/-- Attribute access on a tag (`tag.get(k)` / `tag[k]`). -/
def hattr : HNode → String → Option String
  | .text _, _ => none
  | .elem _ attrs _, k => (attrs.find? (fun p => p.1 = k)).map (fun p => p.2)

def isNamed (nm : String) : HNode → Bool
  | .elem n _ _ => n = nm
  | .text _ => false

mutual

/-- Strict descendants in document (pre-) order, the search order of
BeautifulSoup `find` / `find_all`. -/
def hDescendants : HNode → List HNode
  | .text _ => []
  | .elem _ _ cs => hDescList cs

def hDescList : List HNode → List HNode
  | [] => []
  | c :: cs => c :: (hDescendants c ++ hDescList cs)

end

mutual

/-- All `NavigableString`s of a subtree in document order
(BeautifulSoup `_all_strings`). -/
def allStrings : HNode → List String
  | .text s => [s]
  | .elem _ _ cs => allStringsL cs

def allStringsL : List HNode → List String
  | [] => []
  | c :: cs => allStrings c ++ allStringsL cs

end

/-- Model of `node.get_text(" ", strip=True)`: strip every descendant
string, drop the ones that become empty, join with a single space. -/
def getTextSp (n : HNode) : String :=
  joinSpace (((allStrings n).map pyStrip).filter (fun s => s ≠ ""))

/-! ### Anchor markers (`insert_anchor_markers`)

BeautifulSoup node identity is modelled by tree positions (child-index
paths).  The Python loop mutates the soup by `insert_before`, but inserted
markers carry no `id`/`name` attribute, so later `find` calls resolve the
same nodes as on the unmutated tree; the loop is therefore equivalent to
resolving all targets first (de-duplicated by identity, in anchor order) and
then inserting one marker in front of each resolved position. -/

def anchorMarkerTag : String := "epub2txt-sep"

def markerNode : HNode := .elem anchorMarkerTag [] []

mutual

/-- Positions (child-index paths) of all strict descendants, paired with
the nodes, in document order. -/
def hPosList : HNode → List Nat → List (List Nat × HNode)
  | .text _, _ => []
  | .elem _ _ cs, p => hPosKids cs p 0

def hPosKids : List HNode → List Nat → Nat → List (List Nat × HNode)
  | [], _, _ => []
  | c :: cs, p, i => (p ++ [i], c) :: (hPosList c (p ++ [i]) ++ hPosKids cs p (i + 1))

end

def nodeAt : List Nat → HNode → Option HNode
  | [], n => some n
  | _ :: _, .text _ => none
  | i :: p, .elem _ _ cs => (cs.get? i).bind (nodeAt p)

def nodeHasAttrVal (k v : String) : HNode → Bool
  | .text _ => false
  | .elem _ attrs _ =>
    ((attrs.find? (fun q => q.1 = k)).map (fun q => q.2)) = some v

def headingNames : List String := ["h1", "h2", "h3", "h4", "h5", "h6"]

/-- Position of `soup.find(id=aid) or soup.find(attrs=dict [name := aid])`. -/
def findTargetPos (doc : HNode) (aid : String) : Option (List Nat) :=
  (((hPosList doc []).find? (fun pc => nodeHasAttrVal "id" aid pc.2)).map (fun pc => pc.1)) <|>
  (((hPosList doc []).find? (fun pc => nodeHasAttrVal "name" aid pc.2)).map (fun pc => pc.1))

/-- Nearest ancestor that is a heading tag
(`target.find_parent(list(HEADING_TAGS.keys()))`). -/
def headingAncestor (doc : HNode) (pos : List Nat) : Option (List Nat) :=
  ((List.range pos.length).reverse.map (fun k => pos.take k)).find? (fun q =>
    match nodeAt q doc with
    | some (.elem nm _ _) => headingNames.contains nm
    | _ => false)

/-- Resolution of one anchor id to the node a marker is inserted before. -/
def resolveAnchor (doc : HNode) (aid : String) : Option (List Nat) :=
  if aid = "" then none
  else
    match findTargetPos doc aid with
    | none => none
    | some p => some ((headingAncestor doc p).getD p)

/-- Resolved target positions, de-duplicated by node identity, in anchor
order (the `seen_targets` set of the source). -/
def anchorTargets (doc : HNode) (ids : List String) : List (List Nat) :=
  ids.foldl
    (fun seen aid =>
      match resolveAnchor doc aid with
      | none => seen
      | some p => if seen.contains p then seen else seen ++ [p])
    []

mutual

def insertAtNode (targets : List (List Nat)) : HNode → List Nat → HNode
  | .text s, _ => .text s
  | .elem nm at_ cs, p => .elem nm at_ (insertAtKids targets cs p 0)

def insertAtKids (targets : List (List Nat)) : List HNode → List Nat → Nat → List HNode
  | [], _, _ => []
  | c :: cs, p, i =>
    (if targets.contains (p ++ [i]) then [markerNode] else []) ++
      (insertAtNode targets c (p ++ [i]) :: insertAtKids targets cs p (i + 1))

end

/-- Model of `insert_anchor_markers`. -/
def insert_anchor_markers (doc : HNode) (ids : List String) : HNode :=
  if ids = [] then doc
  else insertAtNode (anchorTargets doc ids) doc []

/-! ### HTML nav table-of-contents parser (`parse_nav_toc_entries`) -/

/-- Match for `li.find('a', href=True)`. -/
def hasHrefLink (n : HNode) : Bool :=
  isNamed "a" n && (hattr n "href").isSome

/-- Model of the `nav` element lookup chain in `parse_nav_toc_entries`. -/
def findNavElem (doc : HNode) : Option HNode :=
  ((hDescendants doc).find? (fun n => isNamed "nav" n && hattr n "epub:type" = some "toc")) <|>
  ((hDescendants doc).find? (fun n => isNamed "nav" n && hattr n "role" = some "doc-toc")) <|>
  ((hDescendants doc).find? (fun n => isNamed "nav" n))

/-- The `TocEntry` contributed by `li.find('a', href=True)` for one `li`. -/
def liLinkEntries (tocDir : String) (lcs : List HNode) (d : Nat) : List TocEntry :=
  match (hDescList lcs).find? hasHrefLink with
  | some link =>
    let title := joinSpace (pySplit (getTextSp link))
    let pf := split_toc_href tocDir ((hattr link "href").getD "")
    if pf.1 ≠ "" then [⟨pf.1, pf.2, title, d⟩] else []
  | none => []

def isListTag : HNode → Bool
  | .elem nm _ _ => nm = "ol" ∨ nm = "ul"
  | .text _ => false

mutual

/-- Model of `walk_list` applied to a list tag node. -/
def wlListNode (tocDir : String) : HNode → Nat → List TocEntry
  | .text _, _ => []
  | .elem _ _ cs, d => wlLis tocDir cs d

/-- Iteration over `list_tag.find_all('li', recursive=False)`. -/
def wlLis (tocDir : String) : List HNode → Nat → List TocEntry
  | [], _ => []
  | c :: rest, d => wlLiNode tocDir c d ++ wlLis tocDir rest d

/-- Handling of one direct child: only `li` tags contribute. -/
def wlLiNode (tocDir : String) : HNode → Nat → List TocEntry
  | .text _, _ => []
  | .elem nm _ lcs, d =>
    if nm = "li" then liLinkEntries tocDir lcs d ++ wlFirstList tocDir lcs d
    else []

/-- Model of `li.find(['ol','ul'], recursive=False)` followed by the
recursive `walk_list` call at depth + 1. -/
def wlFirstList (tocDir : String) : List HNode → Nat → List TocEntry
  | [], _ => []
  | c :: rest, d =>
    if isListTag c then wlListNode tocDir c (d + 1)
    else wlFirstList tocDir rest d

end

/-- Model of `parse_nav_toc_entries` on a parsed document. -/
def parse_nav_toc_entries (doc : HNode) (tocDir : String) : List TocEntry :=
  match findNavElem doc with
  | none => []
  | some nav =>
    match (hDescendants nav).find? (fun n => isNamed "ol" n || isNamed "ul" n) with
    | none => []
    | some listRoot => wlListNode tocDir listRoot 1

/-! ### Chapter anchor selector (`select_toc_chapter_anchors`) -/

/-- The `anchors` dict is modelled by its lookup function (`none` for an
absent key); `appendAnchor` is `anchors.setdefault(path, [])` followed by
the append-if-missing of the fragment. -/
def appendAnchor (m : String → Option (List String)) (k f : String) :
    String → Option (List String) :=
  fun p =>
    if p = k then
      some (let cur := (m k).getD []; if f ∈ cur then cur else cur ++ [f])
    else m p

/-- Conjunction of the guards in the selector loop. -/
def anchorSel (e : TocEntry) : Bool :=
  e.depth = 1 && htmlExt e.path && e.fragment ≠ ""

/-- Model of `select_toc_chapter_anchors` (as the resulting dict's lookup
function). -/
def select_toc_chapter_anchors (entries : List TocEntry) : String → Option (List String) :=
  if entries = [] then (fun _ => none)
  else entries.foldl
    (fun acc e => if anchorSel e then appendAnchor acc (normpath e.path) e.fragment else acc)
    (fun _ => none)

/-! ### Text normalizer (`normalize_extracted_text`)

The regex passes are implemented as single left-to-right scans, which agree
with `re.sub` for these patterns:
`text.replace('\r\n','\n').replace('\r','\n')`, `[ \t\f\v]+` to one space,
`" *\n *"` to `"\n"`, and `\n{3,}` to `"\n\n"`. -/

def replCRLF : List Char → List Char
  | [] => []
  | [c] => [c]
  | c1 :: c2 :: r =>
    if c1 = '\r' ∧ c2 = '\n' then '\n' :: replCRLF r
    else c1 :: replCRLF (c2 :: r)

def replCR (l : List Char) : List Char :=
  l.map (fun c => if c = '\r' then '\n' else c)

def eolNormCL (l : List Char) : List Char := replCR (replCRLF l)

/-- Line-ending normalization applied to preformatted segments. -/
def eolNorm (s : String) : String := String.mk (eolNormCL s.data)

/-- Character class of the regex `[ \t\f\v]`. -/
def isHws (c : Char) : Bool :=
  c = ' ' || c = '\t' || c = '\x0c' || c = '\x0b'

/-- Scan for `re.sub(r"[ \t\f\v]+", " ", text)`: a run of horizontal
whitespace becomes one space. -/
def reHwsGo : List Char → Bool → List Char
  | [], _ => []
  | c :: r, inRun =>
    if isHws c then (if inRun then reHwsGo r true else ' ' :: reHwsGo r true)
    else c :: reHwsGo r false

/-- Scan for `re.sub(r" *\n *", "\n", text)`: `k` counts pending spaces
(deleted if a newline follows, emitted otherwise), `afterNl` drops spaces
that directly follow an emitted newline. -/
def canlGo : List Char → Bool → Nat → List Char
  | [], _, k => List.replicate k ' '
  | c :: r, afterNl, k =>
    if c = '\n' then '\n' :: canlGo r true 0
    else if c = ' ' then
      (if afterNl then canlGo r true 0 else canlGo r false (k + 1))
    else List.replicate k ' ' ++ c :: canlGo r false 0

/-- Scan for `re.sub(r"\n{3,}", "\n\n", text)`: a run of `k` newlines is
emitted as `min k 2` newlines. -/
def reNl3Go : List Char → Nat → List Char
  | [], k => List.replicate (min k 2) '\n'
  | c :: r, k =>
    if c = '\n' then reNl3Go r (k + 1)
    else List.replicate (min k 2) '\n' ++ c :: reNl3Go r 0

/-- The four passes of `flush_normal` applied to the joined buffer. -/
def flushPasses (l : List Char) : List Char :=
  reNl3Go (canlGo (reHwsGo (eolNormCL l) false) false 0) 0

/-- Python `"".join`. -/
def concatStrs : List String → String
  | [] => ""
  | x :: xs => x ++ concatStrs xs

def flushBuf (buf : List String) : List String :=
  if buf = [] then [] else [String.mk (flushPasses (concatStrs buf).data)]

/-- The segment loop of `normalize_extracted_text`: `buf` is
`normal_buffer`, `out` is `output`. -/
def normGo : List (String × Bool) → List String → List String → List String
  | [], buf, out => out ++ flushBuf buf
  | (t, pre) :: r, buf, out =>
    if pre then normGo r [] (out ++ flushBuf buf ++ [eolNorm t])
    else normGo r (buf ++ [t]) out

/-- Strip of the leading and trailing newline runs
(`re.sub(r"^\n+", "", _)` and `re.sub(r"\n+$", "", _)`). -/
def stripEdgeNl (l : List Char) : List Char :=
  ((l.dropWhile (fun c => c = '\n')).reverse.dropWhile (fun c => c = '\n')).reverse

/-- Model of `normalize_extracted_text`. -/
def normalize_extracted_text (segs : List (String × Bool)) : String :=
  String.mk (stripEdgeNl (concatStrs (normGo segs [] [])).data)

/-! ### HTML extraction walk (`get_clean_text`)

Emitted parts keep the `is_content` flag that the Python code passes to
`add_text`; `partPair` erases it, recovering the exact `(text, is_pre)`
pairs the source appends to `parts` (a boundary is appended as the pair
`("\n\n---\n\n", False)`). -/

inductive Part where
  | seg (s : String) (pre : Bool) (content : Bool)
  | sep
deriving DecidableEq, Repr

def partPair : Part → String × Bool
  | .seg s pre _ => (s, pre)
  | .sep => ("\n\n---\n\n", false)

structure WalkSt where
  parts : List Part
  hasContent : Bool
  lastSep : Bool

def initWalkSt : WalkSt := ⟨[], false, false⟩

/-- Model of the `add_text` closure. -/
def addText (st : WalkSt) (s : String) (pre content : Bool) : WalkSt :=
  if s = "" then st
  else
    { parts := st.parts ++ [.seg s pre content]
      hasContent := st.hasContent || content
      lastSep := if content then false else st.lastSep }

/-- Model of the `add_separator` closure. -/
def addSeparator (st : WalkSt) : WalkSt :=
  if st.hasContent && !st.lastSep then
    { parts := st.parts ++ [.sep], hasContent := st.hasContent, lastSep := true }
  else st

/-- Scan for `re.sub(r"\s+", " ", text)` on plain text nodes. -/
def collapseWsGo : List Char → Bool → List Char
  | [], _ => []
  | c :: r, inRun =>
    if isPySpace c then (if inRun then collapseWsGo r true else ' ' :: collapseWsGo r true)
    else c :: collapseWsGo r false

def collapseWs (s : String) : String := String.mk (collapseWsGo s.data false)

def BLOCK_TAGS : List String :=
  ["p", "div", "h1", "h2", "h3", "h4", "h5", "h6",
   "li", "ul", "ol", "dl", "dt", "dd",
   "table", "thead", "tbody", "tfoot", "tr", "td", "th",
   "article", "section", "main", "header", "footer", "nav", "aside",
   "blockquote", "pre", "hr"]

def PRE_TAGS : List String := ["pre", "code", "samp", "kbd", "tt"]

def SKIP_TAGS : List String := ["script", "style", "title", "meta", "noscript"]

def headingLevel (n : String) : Option Nat :=
  if n = "h1" then some 1
  else if n = "h2" then some 2
  else if n = "h3" then some 3
  else if n = "h4" then some 4
  else if n = "h5" then some 5
  else if n = "h6" then some 6
  else none

def MAX_HEADING_LEVEL : Nat := 6

mutual

/-- Model of one step of the `walk` closure of `get_clean_text` on a single
child node. -/
def walkNode (st : WalkSt) (inPre : Bool) (listDepth : Nat) : HNode → WalkSt
  | .text s =>
    if inPre then addText st s true (pyStrip s ≠ "")
    else
      let t := collapseWs s
      addText st t false (pyStrip t ≠ "")
  | .elem nm0 at_ cs =>
    let nm := lowerStr nm0
    if SKIP_TAGS.contains nm then st
    else if nm = anchorMarkerTag then addSeparator st
    else if nm = "br" then addText st "\n" inPre false
    else if nm = "b" ∨ nm = "strong" then
      (if inPre then walkNodes st inPre listDepth cs
       else addText (walkNodes (addText st "**" false false) inPre listDepth cs) "**" false false)
    else if nm = "ul" ∨ nm = "ol" then
      (if inPre then walkNodes st inPre (listDepth + 1) cs
       else addText (walkNodes (addText st "\n" false false) inPre (listDepth + 1) cs) "\n" false false)
    else if nm = "li" then
      (if inPre then walkNodes st inPre listDepth cs
       else
        let st1 := addText st "\n" false false
        let st2 := addText st1 (repeatStr "    " (listDepth - 1) ++ "- ") true false
        addText (walkNodes st2 inPre listDepth cs) "\n" false false)
    else
      let isBlock := BLOCK_TAGS.contains nm
      let nextPre := inPre || PRE_TAGS.contains nm
      match headingLevel nm with
      | some lvl =>
        if inPre then
          (if isBlock && !inPre then
            addText (walkNodes (addText st "\n" false false) nextPre listDepth cs) "\n" false false
           else walkNodes st nextPre listDepth cs)
        else
          let ht := getTextSp (.elem nm0 at_ cs)
          if ht ≠ "" then
            addText
              (addText (addText st "\n" false false)
                (repeatStr "#" (min lvl MAX_HEADING_LEVEL) ++ " " ++ ht) false true)
              "\n" false false
          else
            (if isBlock && !inPre then
              addText (walkNodes (addText st "\n" false false) nextPre listDepth cs) "\n" false false
             else walkNodes st nextPre listDepth cs)
      | none =>
        (if isBlock && !inPre then
          addText (walkNodes (addText st "\n" false false) nextPre listDepth cs) "\n" false false
         else walkNodes st nextPre listDepth cs)

/-- Model of `walk(node, ...)`: fold `walkNode` over the children. -/
def walkNodes (st : WalkSt) (inPre : Bool) (listDepth : Nat) : List HNode → WalkSt
  | [] => st
  | c :: rest => walkNodes (walkNode st inPre listDepth c) inPre listDepth rest

end

/-- Parts emitted by the walk for a whole document, starting from
`soup.body or soup`. -/
def cleanParts (doc : HNode) : List Part :=
  let root := ((hDescendants doc).find? (isNamed "body")).getD doc
  (walkNodes initWalkSt false 0 root.children).parts

/-- Model of `get_clean_text`. -/
def get_clean_text (doc : HNode) : String :=
  normalize_extracted_text ((cleanParts doc).map partPair)

/-! ### Archive model and assembler (`epub_to_text`)

An archive entry carries both parse views of its bytes: the ElementTree
view (`none` models an XML parse error) and the BeautifulSoup view
(`html.parser` never fails).  `zipfile` name lookup lets a later duplicate
entry shadow an earlier one. -/

structure ZipEntry where
  name : String
  xmlView : Option XmlElem
  htmlView : HNode

def zipRead (ar : List ZipEntry) (nm : String) : Option ZipEntry :=
  ar.reverse.find? (fun e => e.name = nm)

def namelist (ar : List ZipEntry) : List String := ar.map (fun e => e.name)

/-- Model of `parse_toc_entries`. -/
def parse_toc_entries (ar : List ZipEntry) (tocPath : Option String) : List TocEntry :=
  match tocPath with
  | none => []
  | some p =>
    if p = "" then []
    else
      match zipRead ar p with
      | none => []
      | some e =>
        let tocDir := pdirname p
        if endsWithStr (lowerStr p) ".ncx" then parse_ncx_toc_entries e.xmlView tocDir
        else parse_nav_toc_entries e.htmlView tocDir

def containerRootfileTag : String :=
  "\x7burn:oasis:names:tc:opendocument:xmlns:container\x7drootfile"

/-- Model of `get_epub_rootfile`: the container lookup with the `*.opf`
scan fallback; `none` models the final `ValueError`. -/
def get_epub_rootfile (ar : List ZipEntry) : Option String :=
  (match zipRead ar "META-INF/container.xml" with
   | some e =>
     match e.xmlView with
     | some x =>
       ((xmlDescendants x).find? (fun d => d.tag = containerRootfileTag)).bind
         (fun rf => xattr rf "full-path")
     | none => none
   | none => none) <|>
  (namelist ar).find? (fun n => endsWithStr n ".opf")

def isSkipTag : HNode → Bool
  | .elem nm _ _ => SKIP_TAGS.contains nm
  | .text _ => false

mutual

/-- Removal of script/style/title/meta/noscript elements
(`element.decompose()` loop in `epub_to_text`). -/
def decomposeNode : HNode → HNode
  | .text s => .text s
  | .elem nm at_ cs => .elem nm at_ (decomposeKids cs)

def decomposeKids : List HNode → List HNode
  | [] => []
  | c :: rest =>
    (if isSkipTag c then [] else [decomposeNode c]) ++ decomposeKids rest

end

/-- Code-point lexicographic string comparison (Python `str` ordering). -/
def clLe : List Char → List Char → Bool
  | [], _ => true
  | _ :: _, [] => false
  | c :: cr, d :: dr =>
    if c.toNat < d.toNat then true
    else if d.toNat < c.toNat then false
    else clLe cr dr

def strLe (a b : String) : Bool := clLe a.data b.data

def insertSorted (x : String) : List String → List String
  | [] => [x]
  | y :: ys => if strLe x y then x :: y :: ys else y :: insertSorted x ys

/-- Model of Python `sorted` on strings. -/
def sortStrs : List String → List String
  | [] => []
  | x :: xs => insertSorted x (sortStrs xs)

/-- Step 1 and 2 of `epub_to_text` (rootfile location, read and parse of
the package document); `none` models the `ValueError` re-raise. -/
def opfOf (ar : List ZipEntry) : Option (String × XmlElem) :=
  match get_epub_rootfile ar with
  | none => none
  | some p =>
    match (zipRead ar p).bind (fun e => e.xmlView) with
    | none => none
    | some x => some (p, x)

def spineAndToc (ar : List ZipEntry) : Option (List String × Option String) :=
  (opfOf ar).map (fun px => parse_opf px.2 px.1)

/-- The spine actually iterated, after the empty-spine fallback to all
HTML-family entries sorted by name. -/
def orderedFilesOf (ar : List ZipEntry) : Option (List String) :=
  (spineAndToc ar).map (fun st =>
    if st.1 = [] then sortStrs ((namelist ar).filter htmlExt) else st.1)

/-- The anchor map computed by the assembler. -/
def chapterAnchorsOf (ar : List ZipEntry) : String → Option (List String) :=
  match spineAndToc ar with
  | some st => select_toc_chapter_anchors (parse_toc_entries ar st.2)
  | none => fun _ => none

/-- The `anchor_ids` list used for one spine file
(`chapter_anchors.get(normalized_path, [])`). -/
def anchorIdsFor (anchors : String → Option (List String)) (filePath : String) : List String :=
  (anchors (normpath filePath)).getD []

/-- Per-file body of the assembler loop: `none` when the entry is missing,
not HTML-family, or strips to empty (nothing written); `some text` when the
chapter text is written. -/
def processFile (ar : List ZipEntry) (anchors : String → Option (List String))
    (fp : String) : Option String :=
  match zipRead ar fp with
  | none => none
  | some e =>
    if htmlExt fp then
      let soup := decomposeNode e.htmlView
      let marked := insert_anchor_markers soup (anchorIdsFor anchors fp)
      let text := get_clean_text marked
      (if pyStrip text ≠ "" then some text else none)
    else none

def chapterSeparator : String := "\n\n---\n\n"

def footerLines : String :=
  "File converted by epub2txt\nhttps://github.com/SPACESODA/epub2txt\n"

/-- Model of `epub_to_text` on an already-opened archive: the output is the
full byte stream written to the output file; the timestamp string is the
one interpolated into the footer. -/
def epub_to_text (ar : List ZipEntry) (timestamp : String) : Except String String :=
  match spineAndToc ar with
  | none => .error "Failed to parse EPUB structure"
  | some st =>
    let orderedFiles := if st.1 = [] then sortStrs ((namelist ar).filter htmlExt) else st.1
    if orderedFiles = [] then .error "No readable HTML/XHTML content found in EPUB"
    else
      let anchors := select_toc_chapter_anchors (parse_toc_entries ar st.2)
      let chunks := orderedFiles.filterMap (processFile ar anchors)
      let body := String.join (chunks.map (fun c => c ++ chapterSeparator))
      let pad := if chunks = [] then "\n\n" else ""
      .ok (body ++ pad ++ footerLines ++ "Converted at: " ++ timestamp ++ "\n")

/-! ### C1: boundary suppression invariant of the walk -/

/-- Replay of the separator discipline over an emitted part list: the scan
fails (`none`) as soon as a separator appears without prior content since
the last separator, and otherwise returns the final
`(has_content, last_sep)` state. -/
def sepScan : List Part → Bool → Bool → Option (Bool × Bool)
  | [], hc, ls => some (hc, ls)
  | .sep :: r, hc, ls => if hc && !ls then sepScan r hc true else none
  | .seg _ _ c :: r, hc, ls => sepScan r (hc || c) (if c then false else ls)

/-- Whether a string contains a character that is not Python whitespace. -/
def hasNonWs (s : String) : Bool := s.data.any (fun c => !(isPySpace c))

/-- Invariant carried through the walk: the emitted parts replay to exactly
the walk's `(has_content, last_sep)` state, and every content-flagged
segment contains non-whitespace. -/
def WalkInv (st : WalkSt) : Prop :=
  sepScan st.parts false false = some (st.hasContent, st.lastSep) ∧
  ∀ s b, Part.seg s b true ∈ st.parts → hasNonWs s = true

theorem sepScan_append (a b : List Part) (hc ls : Bool) :
    sepScan (a ++ b) hc ls = (sepScan a hc ls).bind (fun p => sepScan b p.1 p.2) := by
  induction a generalizing hc ls with
  | nil => simp [sepScan]
  | cons x r ih =>
    cases x with
    | sep =>
      simp only [List.cons_append, sepScan]
      split
      · exact ih _ _
      · simp
    | seg s p c => simpa only [List.cons_append, sepScan] using ih _ _

theorem pyStrip_ne_imp_hasNonWs {s : String} (h : pyStrip s ≠ "") : hasNonWs s = true := by
  by_contra hfalse
  apply h
  have hall : ∀ c ∈ s.data, isPySpace c = true := by
    intro c hc
    by_contra hcs
    exact hfalse (List.any_eq_true.mpr ⟨c, hc, by simp [hcs]⟩)
  have hnil : s.data.dropWhile isPySpace = [] := List.dropWhile_eq_nil_iff.mpr hall
  simp [pyStrip, hnil]

theorem WalkInv_addText {st : WalkSt} (h : WalkInv st) (s : String) (pre c : Bool)
    (hcw : c = true → hasNonWs s = true) : WalkInv (addText st s pre c) := by
  unfold addText
  split
  · exact h
  · refine ⟨?_, ?_⟩
    · show sepScan (st.parts ++ [Part.seg s pre c]) false false = _
      rw [sepScan_append, h.1]
      simp [sepScan]
    · intro s' b hb
      rcases List.mem_append.mp hb with hold | hnew
      · exact h.2 s' b hold
      · simp only [List.mem_singleton, Part.seg.injEq] at hnew
        obtain ⟨hs, _, hcc⟩ := hnew
        subst hs
        exact hcw hcc.symm

theorem WalkInv_addSeparator {st : WalkSt} (h : WalkInv st) : WalkInv (addSeparator st) := by
  unfold addSeparator
  split
  · next hcond =>
    refine ⟨?_, ?_⟩
    · show sepScan (st.parts ++ [Part.sep]) false false = _
      rw [sepScan_append, h.1]
      simp only [Bool.and_eq_true, Bool.not_eq_true'] at hcond
      simp [sepScan, hcond.1, hcond.2]
    · intro s' b hb
      rcases List.mem_append.mp hb with hold | hnew
      · exact h.2 s' b hold
      · simp at hnew
  · exact h

theorem headingLevel_pos {nm : String} {lvl : Nat} (h : headingLevel nm = some lvl) :
    1 ≤ lvl := by
  unfold headingLevel at h
  split_ifs at h <;> simp_all <;> omega

theorem hasNonWs_heading {lvl : Nat} (hl : 1 ≤ lvl) (ht : String) :
    hasNonWs (repeatStr "#" (min lvl MAX_HEADING_LEVEL) ++ " " ++ ht) = true := by
  have hmin : 1 ≤ min lvl MAX_HEADING_LEVEL := by
    simp only [MAX_HEADING_LEVEL]
    omega
  obtain ⟨k, hk⟩ : ∃ k, min lvl MAX_HEADING_LEVEL = k + 1 :=
    ⟨min lvl MAX_HEADING_LEVEL - 1, by omega⟩
  rw [hk]
  apply List.any_eq_true.mpr
  refine ⟨'#', ?_, by decide⟩
  show '#' ∈ (repeatStr "#" (k + 1) ++ " " ++ ht).data
  simp only [repeatStr, String.data_append]
  simp

set_option maxHeartbeats 2000000 in
mutual

theorem walkNode_inv (st : WalkSt) (inPre : Bool) (d : Nat) (n : HNode)
    (h : WalkInv st) : WalkInv (walkNode st inPre d n) := by
  cases n with
  | text s =>
    simp only [walkNode]
    split
    · exact WalkInv_addText h _ _ _ (fun hh => pyStrip_ne_imp_hasNonWs (of_decide_eq_true hh))
    · exact WalkInv_addText h _ _ _ (fun hh => pyStrip_ne_imp_hasNonWs (of_decide_eq_true hh))
  | elem nm0 at_ cs =>
    simp only [walkNode]
    repeat' split
    all_goals
      first
      | exact h
      | exact WalkInv_addSeparator h
      | exact walkNodes_inv _ _ _ _ h
      | exact WalkInv_addText h _ _ _ (by simp)
      | exact WalkInv_addText
          (walkNodes_inv _ _ _ _ (WalkInv_addText h _ _ _ (by simp))) _ _ _ (by simp)
      | exact WalkInv_addText
          (walkNodes_inv _ _ _ _
            (WalkInv_addText (WalkInv_addText h _ _ _ (by simp)) _ _ _ (by simp)))
          _ _ _ (by simp)
      | exact WalkInv_addText
          (WalkInv_addText (WalkInv_addText h _ _ _ (by simp)) _ _ _
            (fun _ => hasNonWs_heading (headingLevel_pos (by assumption)) _))
          _ _ _ (by simp)

theorem walkNodes_inv (st : WalkSt) (inPre : Bool) (d : Nat) (l : List HNode)
    (h : WalkInv st) : WalkInv (walkNodes st inPre d l) := by
  cases l with
  | nil => simpa only [walkNodes] using h
  | cons c rest =>
    simp only [walkNodes]
    exact walkNodes_inv _ _ _ _ (walkNode_inv _ _ _ _ h)

end

theorem WalkInv_init : WalkInv initWalkSt := by
  constructor
  · rfl
  · intro s b hb
    simp [initWalkSt] at hb

theorem sepScan_firstSep (a : List Part) (b : List Part) (hc ls : Bool) (q : Bool × Bool)
    (h : sepScan (a ++ Part.sep :: b) hc ls = some q) :
    hc = true ∨ ∃ s p, Part.seg s p true ∈ a := by
  induction a generalizing hc ls with
  | nil =>
    simp only [List.nil_append, sepScan] at h
    split at h
    · next hcond =>
      simp only [Bool.and_eq_true] at hcond
      exact Or.inl hcond.1
    · simp at h
  | cons x r ih =>
    cases x with
    | sep =>
      simp only [List.cons_append, sepScan] at h
      split at h
      · next hcond =>
        simp only [Bool.and_eq_true] at hcond
        exact Or.inl hcond.1
      · simp at h
    | seg s0 p0 c0 =>
      simp only [List.cons_append, sepScan] at h
      rcases ih _ _ h with hor | ⟨s, p, hmem⟩
      · cases c0 with
        | false =>
          simp at hor
          exact Or.inl hor
        | true => exact Or.inr ⟨s0, p0, by simp⟩
      · exact Or.inr ⟨s, p, List.mem_cons_of_mem _ hmem⟩

theorem sepScan_between (m b : List Part) (hc : Bool) (q : Bool × Bool)
    (h : sepScan (m ++ Part.sep :: b) hc true = some q) :
    ∃ s p, Part.seg s p true ∈ m := by
  induction m generalizing hc with
  | nil => simp [sepScan] at h
  | cons x r ih =>
    cases x with
    | sep => simp [sepScan] at h
    | seg s0 p0 c0 =>
      simp only [List.cons_append, sepScan] at h
      cases c0 with
      | true => exact ⟨s0, p0, by simp⟩
      | false =>
        obtain ⟨s, p, hmem⟩ := ih _ h
        exact ⟨s, p, List.mem_cons_of_mem _ hmem⟩

theorem sepScan_last_sep (a : List Part) (hc ls : Bool) (q : Bool × Bool)
    (h : sepScan (a ++ [Part.sep]) hc ls = some q) : q.2 = true := by
  rw [sepScan_append] at h
  rcases hp : sepScan a hc ls with _ | p0
  · rw [hp] at h
    simp at h
  · rw [hp] at h
    simp only [Option.some_bind, sepScan] at h
    split at h
    · simp only [sepScan, Option.some.injEq] at h
      rw [← h]
    · simp at h

/-- Claim C1: in the extraction walk, a chapter-boundary part is only ever
emitted after some content-flagged segment since the last boundary (or the
start): the part sequence of any document with any anchor list never starts
with a boundary before any content, never holds two boundaries with no
content-flagged segment between them, and every content-flagged segment
contains a non-whitespace character. -/
theorem claim_C1 (doc : HNode) (ids : List String) :
    (∀ l r, cleanParts (insert_anchor_markers doc ids) = l ++ Part.sep :: r →
        ∃ s p, Part.seg s p true ∈ l) ∧
    (∀ l m r,
        cleanParts (insert_anchor_markers doc ids) = l ++ Part.sep :: (m ++ Part.sep :: r) →
        ∃ s p, Part.seg s p true ∈ m) ∧
    (∀ s p, Part.seg s p true ∈ cleanParts (insert_anchor_markers doc ids) →
        hasNonWs s = true) := by
  have hinv : WalkInv (walkNodes initWalkSt false 0
      (((hDescendants (insert_anchor_markers doc ids)).find?
        (isNamed "body")).getD (insert_anchor_markers doc ids)).children) :=
    walkNodes_inv _ _ _ _ WalkInv_init
  have hparts : cleanParts (insert_anchor_markers doc ids) =
      (walkNodes initWalkSt false 0
        (((hDescendants (insert_anchor_markers doc ids)).find?
          (isNamed "body")).getD (insert_anchor_markers doc ids)).children).parts := rfl
  refine ⟨?_, ?_, ?_⟩
  · intro l r heq
    have h1 := hinv.1
    rw [← hparts, heq] at h1
    rcases sepScan_firstSep _ _ _ _ _ h1 with hfalse | hex
    · exact (Bool.false_ne_true hfalse).elim
    · exact hex
  · intro l m r heq
    have h1 := hinv.1
    rw [← hparts, heq] at h1
    have hassoc : l ++ Part.sep :: (m ++ Part.sep :: r) =
        (l ++ [Part.sep]) ++ (m ++ Part.sep :: r) := by simp
    rw [hassoc, sepScan_append] at h1
    rcases hp : sepScan (l ++ [Part.sep]) false false with _ | p0
    · rw [hp] at h1
      simp at h1
    · rw [hp] at h1
      simp only [Option.some_bind] at h1
      have hls : p0.2 = true := sepScan_last_sep _ _ _ _ hp
      rw [hls] at h1
      exact sepScan_between _ _ _ _ h1
  · intro s p hmem
    exact hinv.2 s p (by rw [hparts] at hmem; exact hmem)

def c1doc : HNode :=
  .elem "body" [] [.elem "p" [] [.text "A"], .elem "h2" [("id", "a")] [.text "B"]]

theorem claim_C1_witness :
    ∃ s p, Part.seg s p true ∈
      [Part.seg "\n" false false, Part.seg "A" false true, Part.seg "\n" false false] :=
  (claim_C1 c1doc ["a"]).1
    [Part.seg "\n" false false, Part.seg "A" false true, Part.seg "\n" false false]
    [Part.seg "\n" false false, Part.seg "## B" false true, Part.seg "\n" false false]
    (by decide)

/-! ### C2: characterization of the normalizer -/

/-- Modelled on the spec's wording: the segment sequence splits into
maximal runs of consecutive non-preformatted segments (`Sum.inl`, the
buffered runs) and single preformatted segments (`Sum.inr`, flushed
verbatim whenever encountered). -/
def groupSegs : List (String × Bool) → List (List String ⊕ String)
  | [] => []
  | (t, true) :: r => Sum.inr t :: groupSegs r
  | (t, false) :: r =>
    match groupSegs r with
    | Sum.inl ts :: gs => Sum.inl (t :: ts) :: gs
    | gs => Sum.inl [t] :: gs

/-- Modelled on the spec's wording: a buffered run is concatenated and gets
the four cleaning passes; a preformatted segment only gets line-ending
normalization. -/
def renderGroup : (List String ⊕ String) → String
  | Sum.inl ts => String.mk (flushPasses (concatStrs ts).data)
  | Sum.inr t => eolNorm t

theorem groupSegs_all_normal (buf : List String) :
    groupSegs (buf.map (fun t => (t, false))) =
      if buf = [] then [] else [Sum.inl buf] := by
  induction buf with
  | nil => rfl
  | cons x buf ih =>
    simp only [List.map_cons, groupSegs, ih]
    cases buf with
    | nil => rfl
    | cons y buf => rfl

theorem groupSegs_normal_pre (buf : List String) (t : String) (r : List (String × Bool)) :
    groupSegs (buf.map (fun x => (x, false)) ++ (t, true) :: r) =
      (if buf = [] then [] else [Sum.inl buf]) ++ Sum.inr t :: groupSegs r := by
  induction buf with
  | nil => rfl
  | cons x buf ih =>
    cases buf with
    | nil => rfl
    | cons y buf2 =>
      simp only [List.map_cons, List.cons_append, groupSegs, List.append_eq] at ih ⊢
      rw [ih]
      simp

theorem normGo_grouped (segs : List (String × Bool)) :
    ∀ (buf out : List String),
      normGo segs buf out =
        out ++ (groupSegs (buf.map (fun t => (t, false)) ++ segs)).map renderGroup := by
  induction segs with
  | nil =>
    intro buf out
    simp only [normGo, List.append_nil, groupSegs_all_normal]
    by_cases hb : buf = [] <;> simp_all [flushBuf, renderGroup]
  | cons seg r ih =>
    intro buf out
    obtain ⟨t, pre⟩ := seg
    cases pre with
    | true =>
      simp only [normGo]
      rw [ih [] (out ++ flushBuf buf ++ [eolNorm t]), groupSegs_normal_pre]
      by_cases hbuf : buf = [] <;>
        simp [flushBuf, renderGroup, hbuf]
    | false =>
      simp only [normGo]
      rw [ih (buf ++ [t]) out]
      simp

theorem mem_replCRLF {c : Char} (l : List Char) (h : c ∈ replCRLF l) : c = '\n' ∨ c ∈ l := by
  induction l using replCRLF.induct with
  | case1 => simp [replCRLF] at h
  | case2 c0 =>
    simp only [replCRLF] at h
    simp at h
    simp [h]
  | case3 c1 c2 r hc ih =>
    rw [replCRLF, if_pos hc] at h
    rcases List.mem_cons.mp h with h | h
    · exact Or.inl h
    · rcases ih h with h | h
      · exact Or.inl h
      · simp [h]
  | case4 c1 c2 r hc ih =>
    rw [replCRLF, if_neg hc] at h
    rcases List.mem_cons.mp h with h | h
    · simp [h]
    · rcases ih h with h | h
      · exact Or.inl h
      · simp [List.mem_cons.mp h]

theorem noCR_replCR (l : List Char) : '\r' ∉ replCR l := by
  intro hmem
  simp only [replCR, List.mem_map] at hmem
  obtain ⟨a, _, ha⟩ := hmem
  by_cases h : a = '\r' <;> simp [h] at ha

theorem noCR_eolNormCL (l : List Char) : '\r' ∉ eolNormCL l := noCR_replCR _

theorem mem_reHwsGo {c : Char} (l : List Char) (b : Bool) (h : c ∈ reHwsGo l b) :
    c = ' ' ∨ c ∈ l := by
  induction l generalizing b with
  | nil => simp [reHwsGo] at h
  | cons c0 r ih =>
    simp only [reHwsGo] at h
    split at h
    · split at h
      · rcases ih _ h with h | h
        · exact Or.inl h
        · simp [h]
      · rcases List.mem_cons.mp h with h | h
        · exact Or.inl h
        · rcases ih _ h with h | h
          · exact Or.inl h
          · simp [h]
    · rcases List.mem_cons.mp h with h | h
      · simp [h]
      · rcases ih _ h with h | h
        · exact Or.inl h
        · simp [h]

theorem mem_canlGo {c : Char} (l : List Char) (a : Bool) (k : Nat) (h : c ∈ canlGo l a k) :
    c = ' ' ∨ c = '\n' ∨ c ∈ l := by
  induction l generalizing a k with
  | nil =>
    simp only [canlGo] at h
    exact Or.inl (List.eq_of_mem_replicate h)
  | cons c0 r ih =>
    simp only [canlGo] at h
    split at h
    · rcases List.mem_cons.mp h with h | h
      · simp [h]
      · rcases ih _ _ h with h | h | h
        · exact Or.inl h
        · simp [h]
        · simp [h]
    · split at h
      · split at h
        all_goals
          rcases ih _ _ h with h | h | h
          · exact Or.inl h
          · simp [h]
          · simp [h]
      · rcases List.mem_append.mp h with h | h
        · exact Or.inl (List.eq_of_mem_replicate h)
        · rcases List.mem_cons.mp h with h | h
          · simp [h]
          · rcases ih _ _ h with h | h | h
            · exact Or.inl h
            · simp [h]
            · simp [h]

theorem mem_reNl3Go {c : Char} (l : List Char) (k : Nat) (h : c ∈ reNl3Go l k) :
    c = '\n' ∨ c ∈ l := by
  induction l generalizing k with
  | nil =>
    simp only [reNl3Go] at h
    exact Or.inl (List.eq_of_mem_replicate h)
  | cons c0 r ih =>
    simp only [reNl3Go] at h
    split at h
    · rcases ih _ h with h | h
      · exact Or.inl h
      · simp [h]
    · rcases List.mem_append.mp h with h | h
      · exact Or.inl (List.eq_of_mem_replicate h)
      · rcases List.mem_cons.mp h with h | h
        · simp [h]
        · rcases ih _ h with h | h
          · exact Or.inl h
          · simp [h]

theorem noCR_flushPasses (l : List Char) : '\r' ∉ flushPasses l := by
  intro h
  unfold flushPasses at h
  rcases mem_reNl3Go _ _ h with h | h
  · simp at h
  rcases mem_canlGo _ _ _ h with h | h | h
  · simp at h
  · simp at h
  rcases mem_reHwsGo _ _ h with h | h
  · simp at h
  exact noCR_eolNormCL _ h

/-- Scan of all adjacent character pairs for a bad pair. -/
def pairScan (P : Char → Char → Bool) : List Char → Bool
  | a :: b :: r => P a b || pairScan P (b :: r)
  | _ => false

/-- Adjacent horizontal whitespace (a run not collapsed to one character). -/
def hwsPairP (a b : Char) : Bool := isHws a && isHws b

/-- A space touching a newline. -/
def spaceNlP (a b : Char) : Bool := (a = ' ' && b = '\n') || (a = '\n' && b = ' ')

/-- Horizontal whitespace touching a newline. -/
def wsNlP (a b : Char) : Bool := (isHws a && b = '\n') || (a = '\n' && isHws b)

theorem pairScan_cons (P : Char → Char → Bool) (c : Char) (l : List Char) :
    pairScan P (c :: l) =
      ((match l.head? with | some b => P c b | none => false) || pairScan P l) := by
  cases l <;> simp [pairScan]

theorem pairScan_replicate {P : Char → Char → Bool} {x : Char} (hP : P x x = false)
    (k : Nat) : pairScan P (List.replicate k x) = false := by
  induction k with
  | zero => rfl
  | succ k ih =>
    cases k with
    | zero => rfl
    | succ j =>
      simp only [List.replicate_succ, pairScan] at ih ⊢
      simp [hP, ih]

theorem pairScan_append_right {P : Char → Char → Bool} {r : List Char}
    (h : pairScan P r = true) (x : List Char) : pairScan P (x ++ r) = true := by
  induction x with
  | nil => exact h
  | cons a x ih =>
    rw [List.cons_append, pairScan_cons]
    simp [ih]

theorem pairScan_rep_boundary {P : Char → Char → Bool} {x c : Char} {k : Nat}
    (hk : 1 ≤ k) (hP : P x c = true) (r : List Char) :
    pairScan P (List.replicate k x ++ c :: r) = true := by
  obtain ⟨j, rfl⟩ : ∃ j, k = j + 1 := ⟨k - 1, by omega⟩
  induction j with
  | zero => simp [pairScan_cons, hP]
  | succ i ih =>
    rw [List.replicate_succ, List.cons_append, pairScan_cons]
    rw [List.replicate_succ, List.cons_append] at ih ⊢
    simp only [ih (by omega), Bool.or_true]

theorem pairScan_rep_cons_true {P : Char → Char → Bool} {x c : Char} {k : Nat}
    {W : List Char} (h : pairScan P (List.replicate k x ++ c :: W) = true) :
    (2 ≤ k ∧ P x x = true) ∨ (1 ≤ k ∧ P x c = true) ∨ pairScan P (c :: W) = true := by
  induction k with
  | zero => exact Or.inr (Or.inr h)
  | succ k ih =>
    rw [List.replicate_succ, List.cons_append, pairScan_cons] at h
    rcases Bool.or_eq_true_iff.mp h with h | h
    · cases k with
      | zero =>
        simp only [List.replicate_zero, List.nil_append, List.head?_cons] at h
        exact Or.inr (Or.inl ⟨by omega, h⟩)
      | succ j =>
        rw [List.replicate_succ, List.cons_append, List.head?_cons] at h
        exact Or.inl ⟨by omega, h⟩
    · rcases ih h with h | h | h
      · exact Or.inl ⟨by omega, h.2⟩
      · exact Or.inr (Or.inl ⟨by omega, h.2⟩)
      · exact Or.inr (Or.inr h)

theorem reHwsGo_head_not_hws (l : List Char) {h : Char}
    (hh : (reHwsGo l true).head? = some h) : isHws h = false := by
  induction l with
  | nil => simp [reHwsGo] at hh
  | cons c0 r ih =>
    simp only [reHwsGo] at hh
    split at hh
    · exact ih hh
    · next hc =>
      simp only [List.head?_cons, Option.some.injEq] at hh
      rw [← hh]
      simpa using hc

theorem canlGo_head_ne_space (r : List Char) {h : Char}
    (hh : (canlGo r true 0).head? = some h) : h ≠ ' ' := by
  induction r with
  | nil => simp [canlGo] at hh
  | cons c0 r ih =>
    simp only [canlGo] at hh
    split at hh
    · simp only [List.head?_cons, Option.some.injEq] at hh
      rw [← hh]
      decide
    · split at hh
      · exact ih (by simpa using hh)
      · next hns =>
        simp only [List.replicate_zero, List.nil_append, List.head?_cons,
          Option.some.injEq] at hh
        rw [← hh]
        exact hns

theorem canlGo_head_hws (r : List Char) (a : Bool) {h : Char}
    (hhws : isHws h = true) (hh : (canlGo r a 0).head? = some h) :
    ∃ hh2, r.head? = some hh2 ∧ isHws hh2 = true := by
  cases r with
  | nil => simp [canlGo] at hh
  | cons c0 r =>
    simp only [canlGo] at hh
    split at hh
    · next hc =>
      simp only [List.head?_cons, Option.some.injEq] at hh
      rw [← hh] at hhws
      simp [isHws] at hhws
    · split at hh
      · exact ⟨' ', by simp_all, by decide⟩
      · next hns =>
        simp only [List.replicate_zero, List.nil_append, List.head?_cons,
          Option.some.injEq] at hh
        exact ⟨c0, rfl, by rw [hh]; exact hhws⟩

theorem reNl3Go_head_pos (r : List Char) (k : Nat) (hk : 1 ≤ k) :
    (reNl3Go r k).head? = some '\n' := by
  induction r generalizing k with
  | nil =>
    simp only [reNl3Go]
    obtain ⟨j, hj⟩ : ∃ j, min k 2 = j + 1 := ⟨min k 2 - 1, by omega⟩
    rw [hj]
    simp [List.replicate_succ]
  | cons c0 r ih =>
    simp only [reNl3Go]
    split
    · exact ih _ (by omega)
    · obtain ⟨j, hj⟩ : ∃ j, min k 2 = j + 1 := ⟨min k 2 - 1, by omega⟩
      rw [hj]
      simp [List.replicate_succ]

theorem reNl3Go_head_zero (r : List Char) : (reNl3Go r 0).head? = r.head? := by
  cases r with
  | nil => rfl
  | cons c0 r =>
    simp only [reNl3Go]
    split
    · next hc =>
      rw [reNl3Go_head_pos r 1 (by omega), hc]
      simp
    · simp

theorem pairScan_hws_reHwsGo (l : List Char) (b : Bool) :
    pairScan hwsPairP (reHwsGo l b) = false := by
  induction l generalizing b with
  | nil => cases b <;> rfl
  | cons c0 r ih =>
    simp only [reHwsGo]
    split
    · split
      · exact ih true
      · rw [pairScan_cons]
        rcases hW : (reHwsGo r true).head? with _ | w
        · simp [ih true]
        · have := reHwsGo_head_not_hws r hW
          simp [hwsPairP, this, ih true]
    · next hc =>
      rw [pairScan_cons]
      rcases hW : (reHwsGo r false).head? with _ | w
      · simp [hW, ih false]
      · have hc0 : isHws c0 = false := by simpa using hc
        simp [hW, hwsPairP, hc0, ih false]

theorem pairScan_spaceNl_canlGo (l : List Char) (a : Bool) (k : Nat) :
    pairScan spaceNlP (canlGo l a k) = false := by
  induction l generalizing a k with
  | nil =>
    simp only [canlGo]
    exact pairScan_replicate (by decide) k
  | cons c0 r ih =>
    simp only [canlGo]
    split
    · rw [pairScan_cons]
      rcases hW : (canlGo r true 0).head? with _ | w
      · simp [ih true 0]
      · have hw : w ≠ ' ' := canlGo_head_ne_space r hW
        simp [spaceNlP, hw, ih true 0]
    · split
      · split
        · exact ih true 0
        · exact ih false (k + 1)
      · next hnl hsp =>
        by_contra hcon
        rw [Bool.not_eq_false] at hcon
        rcases pairScan_rep_cons_true hcon with ⟨_, hbad⟩ | ⟨_, hbad⟩ | hbad
        · simp [spaceNlP] at hbad
        · simp only [spaceNlP, Bool.or_eq_true, Bool.and_eq_true, decide_eq_true_eq] at hbad
          rcases hbad with ⟨_, hbad⟩ | ⟨hbad, _⟩
          · exact hnl hbad
          · simp at hbad
        · rw [pairScan_cons] at hbad
          rcases Bool.or_eq_true_iff.mp hbad with hbad | hbad
          · rcases hW : (canlGo r false 0).head? with _ | w
            · rw [hW] at hbad
              simp at hbad
            · rw [hW] at hbad
              simp only [spaceNlP, Bool.or_eq_true, Bool.and_eq_true,
                decide_eq_true_eq] at hbad
              rcases hbad with ⟨hbad, _⟩ | ⟨hbad, _⟩
              · exact hsp hbad
              · exact hnl hbad
          · rw [ih false 0] at hbad
            simp at hbad

theorem pairScan_cons_head {P : Char → Char → Bool} {c h2 : Char} {r : List Char}
    (hhead : r.head? = some h2) (hP : P c h2 = true) : pairScan P (c :: r) = true := by
  rw [pairScan_cons, hhead]
  simp [hP]

theorem pairScan_cons_tail {P : Char → Char → Bool} {c : Char} {r : List Char}
    (h : pairScan P r = true) : pairScan P (c :: r) = true := by
  rw [pairScan_cons]
  simp [h]

theorem pairScan_rep_pair {P : Char → Char → Bool} {x : Char} {k : Nat}
    (hk : 2 ≤ k) (hP : P x x = true) (t : List Char) :
    pairScan P (List.replicate k x ++ t) = true := by
  obtain ⟨j, rfl⟩ : ∃ j, k = j + 2 := ⟨k - 2, by omega⟩
  rw [List.replicate_succ, List.cons_append, pairScan_cons]
  rw [List.replicate_succ, List.cons_append, List.head?_cons]
  simp [hP]

theorem canlGo_hws_pres (l : List Char) (a : Bool) (k : Nat)
    (h : pairScan hwsPairP (canlGo l a k) = true) :
    pairScan hwsPairP (List.replicate k ' ' ++ l) = true := by
  induction l generalizing a k with
  | nil =>
    simp only [canlGo] at h
    simpa using h
  | cons c0 r ih =>
    simp only [canlGo] at h
    split at h
    · rw [pairScan_cons] at h
      rcases Bool.or_eq_true_iff.mp h with h | h
      · rcases hW : (canlGo r true 0).head? with _ | w
        · rw [hW] at h
          simp at h
        · rw [hW] at h
          simp [hwsPairP, isHws] at h
      · have hr := ih true 0 h
        simp only [List.replicate_zero, List.nil_append] at hr
        exact pairScan_append_right (pairScan_cons_tail hr) _
    · split at h
      · split at h
        · have hr := ih true 0 h
          simp only [List.replicate_zero, List.nil_append] at hr
          exact pairScan_append_right (pairScan_cons_tail hr) _
        · next hc2 _ =>
          have hr := ih false (k + 1) h
          have heq : List.replicate k ' ' ++ c0 :: r =
              List.replicate (k + 1) ' ' ++ r := by
            rw [hc2, List.replicate_succ', List.append_assoc, List.singleton_append]
          rw [heq]
          exact hr
      · rcases pairScan_rep_cons_true h with ⟨hk2, hPP⟩ | ⟨hk1, hPc⟩ | hcw
        · exact pairScan_rep_pair hk2 hPP _
        · exact pairScan_rep_boundary hk1 hPc _
        · rw [pairScan_cons] at hcw
          rcases Bool.or_eq_true_iff.mp hcw with hP | hW
          · rcases hW2 : (canlGo r false 0).head? with _ | w
            · rw [hW2] at hP
              simp at hP
            · rw [hW2] at hP
              simp only [hwsPairP, Bool.and_eq_true] at hP
              obtain ⟨h2, hr2, hh2⟩ := canlGo_head_hws r false hP.2 hW2
              have hpair : pairScan hwsPairP (c0 :: r) = true :=
                pairScan_cons_head hr2 (by simp [hwsPairP, hP.1, hh2])
              exact pairScan_append_right hpair _
          · have hr := ih false 0 hW
            simp only [List.replicate_zero, List.nil_append] at hr
            exact pairScan_append_right (pairScan_cons_tail hr) _

theorem reNl3Go_hws_pres (l : List Char) (k : Nat)
    (h : pairScan hwsPairP (reNl3Go l k) = true) : pairScan hwsPairP l = true := by
  induction l generalizing k with
  | nil =>
    simp only [reNl3Go] at h
    rw [pairScan_replicate (by decide) _] at h
    exact absurd h (by simp)
  | cons c0 r ih =>
    simp only [reNl3Go] at h
    split at h
    · exact pairScan_cons_tail (ih _ h)
    · rcases pairScan_rep_cons_true h with ⟨_, hPP⟩ | ⟨_, hPc⟩ | hcw
      · simp [hwsPairP, isHws] at hPP
      · simp [hwsPairP, isHws] at hPc
      · rw [pairScan_cons] at hcw
        rcases Bool.or_eq_true_iff.mp hcw with hP | hW
        · rw [reNl3Go_head_zero] at hP
          rcases hr : r.head? with _ | w
          · rw [hr] at hP
            simp at hP
          · rw [hr] at hP
            exact pairScan_cons_head hr hP
        · exact pairScan_cons_tail (ih 0 hW)

theorem reNl3Go_spaceNl_pres (l : List Char) (k : Nat)
    (h : pairScan spaceNlP (reNl3Go l k) = true) :
    pairScan spaceNlP (List.replicate k '\n' ++ l) = true := by
  induction l generalizing k with
  | nil =>
    simp only [reNl3Go] at h
    rw [pairScan_replicate (by decide) _] at h
    exact absurd h (by simp)
  | cons c0 r ih =>
    simp only [reNl3Go] at h
    split at h
    · next hc =>
      have hr := ih (k + 1) h
      have heq : List.replicate k '\n' ++ c0 :: r =
          List.replicate (k + 1) '\n' ++ r := by
        rw [hc, List.replicate_succ', List.append_assoc, List.singleton_append]
      rw [heq]
      exact hr
    · rcases pairScan_rep_cons_true h with ⟨_, hPP⟩ | ⟨hk1, hPc⟩ | hcw
      · simp [spaceNlP] at hPP
      · have hk : 1 ≤ k := by
          simp only [Nat.le_min] at hk1
          omega
        exact pairScan_rep_boundary hk hPc _
      · rw [pairScan_cons] at hcw
        rcases Bool.or_eq_true_iff.mp hcw with hP | hW
        · rw [reNl3Go_head_zero] at hP
          rcases hr : r.head? with _ | w
          · rw [hr] at hP
            simp at hP
          · rw [hr] at hP
            exact pairScan_append_right (pairScan_cons_head hr hP) _
        · have hr := ih 0 hW
          simp only [List.replicate_zero, List.nil_append] at hr
          exact pairScan_append_right (pairScan_cons_tail hr) _

/-- Scan for a run of three consecutive newlines. -/
def hasTriple : List Char → Bool
  | a :: b :: c2 :: r => (a = '\n' && b = '\n' && c2 = '\n') || hasTriple (b :: c2 :: r)
  | _ => false

theorem hasTriple_replicate_le2 {m : Nat} (hm : m ≤ 2) :
    hasTriple (List.replicate m '\n') = false := by
  interval_cases m <;> decide

theorem hasTriple_cons_ne {c : Char} (hc : c ≠ '\n') (z : List Char) :
    hasTriple (c :: z) = hasTriple z := by
  match z with
  | [] => rfl
  | [b] => rfl
  | b :: c2 :: r => simp [hasTriple, hc]

theorem hasTriple_rep_cons {m : Nat} (hm : m ≤ 2) {c : Char} (hc : c ≠ '\n')
    (z : List Char) :
    hasTriple (List.replicate m '\n' ++ c :: z) = hasTriple (c :: z) := by
  interval_cases m
  · rfl
  · match z with
    | [] => rfl
    | [b] => simp [hasTriple, hc]
    | b :: c2 :: r => simp [hasTriple, hc]
  · match z with
    | [] => simp [hasTriple, hc]
    | [b] => simp [hasTriple, hc]
    | b :: c2 :: r => simp [hasTriple, hc]

theorem noTriple_reNl3Go (l : List Char) (k : Nat) :
    hasTriple (reNl3Go l k) = false := by
  induction l generalizing k with
  | nil =>
    simp only [reNl3Go]
    exact hasTriple_replicate_le2 (by omega)
  | cons c0 r ih =>
    simp only [reNl3Go]
    split
    · exact ih _
    · next hc =>
      rw [hasTriple_rep_cons (by omega) hc, hasTriple_cons_ne hc]
      exact ih 0

theorem pairScan_congr {P Q : Char → Char → Bool} :
    ∀ (l : List Char), (∀ a ∈ l, ∀ b ∈ l, P a b = Q a b) →
      pairScan P l = pairScan Q l
  | [], _ => rfl
  | [_], _ => rfl
  | a :: b :: r, hpq => by
    simp only [pairScan]
    rw [hpq a (by simp) b (by simp),
      pairScan_congr (b :: r)
        (fun x hx y hy => hpq x (List.mem_cons_of_mem _ hx) y (List.mem_cons_of_mem _ hy))]

theorem wsNl_eq_spaceNl {a b : Char} (ha : isHws a = true → a = ' ')
    (hb : isHws b = true → b = ' ') : wsNlP a b = spaceNlP a b := by
  have hsp : isHws ' ' = true := by decide
  by_cases h1 : isHws a = true
  · rw [ha h1]
    by_cases h2 : isHws b = true
    · rw [hb h2]
      decide
    · have h2f : isHws b = false := by simpa using h2
      have hbne : b ≠ ' ' := fun hh => by simp [hh, isHws] at h2f
      simp [wsNlP, spaceNlP, h2f, hbne, hsp]
  · have h1f : isHws a = false := by simpa using h1
    have hane : a ≠ ' ' := fun hh => by simp [hh, isHws] at h1f
    by_cases h2 : isHws b = true
    · rw [hb h2]
      simp [wsNlP, spaceNlP, h1f, hane, hsp]
    · have h2f : isHws b = false := by simpa using h2
      have hbne : b ≠ ' ' := fun hh => by simp [hh, isHws] at h2f
      simp [wsNlP, spaceNlP, h1f, h2f, hane, hbne]

theorem hws_mem_reHwsGo {c : Char} (l : List Char) (b : Bool)
    (hmem : c ∈ reHwsGo l b) (hhws : isHws c = true) : c = ' ' := by
  induction l generalizing b with
  | nil => simp [reHwsGo] at hmem
  | cons c0 r ih =>
    simp only [reHwsGo] at hmem
    split at hmem
    · split at hmem
      · exact ih _ hmem
      · rcases List.mem_cons.mp hmem with h | h
        · exact h
        · exact ih _ h
    · next hc =>
      rcases List.mem_cons.mp hmem with h | h
      · rw [h] at hhws
        simp [hhws] at hc
      · exact ih _ h

theorem flushPasses_hws_space {c : Char} (l : List Char)
    (hmem : c ∈ flushPasses l) (hhws : isHws c = true) : c = ' ' := by
  unfold flushPasses at hmem
  rcases mem_reNl3Go _ _ hmem with h | h
  · rw [h] at hhws
    simp [isHws] at hhws
  rcases mem_canlGo _ _ _ h with h | h | h
  · exact h
  · rw [h] at hhws
    simp [isHws] at hhws
  exact hws_mem_reHwsGo _ _ h hhws

theorem flushPasses_noTriple (l : List Char) : hasTriple (flushPasses l) = false :=
  noTriple_reNl3Go _ 0

theorem flushPasses_noHwsPair (l : List Char) :
    pairScan hwsPairP (flushPasses l) = false := by
  by_contra hcon
  rw [Bool.not_eq_false] at hcon
  have h1 := reNl3Go_hws_pres _ _ hcon
  have h2 := canlGo_hws_pres _ _ _ h1
  simp only [List.replicate_zero, List.nil_append] at h2
  rw [pairScan_hws_reHwsGo] at h2
  exact absurd h2 (by simp)

theorem flushPasses_noWsNl (l : List Char) :
    pairScan wsNlP (flushPasses l) = false := by
  have hcongr : pairScan wsNlP (flushPasses l) = pairScan spaceNlP (flushPasses l) :=
    pairScan_congr _
      (fun a hai b hbi => wsNl_eq_spaceNl (flushPasses_hws_space l hai)
        (flushPasses_hws_space l hbi))
  rw [hcongr]
  by_contra hcon
  rw [Bool.not_eq_false] at hcon
  have h1 := reNl3Go_spaceNl_pres _ _ hcon
  simp only [List.replicate_zero, List.nil_append] at h1
  rw [pairScan_spaceNl_canlGo] at h1
  exact absurd h1 (by simp)

theorem mem_concatStrs {c : Char} : ∀ (xs : List String), c ∈ (concatStrs xs).data →
    ∃ s ∈ xs, c ∈ s.data
  | [], h => by simp [concatStrs] at h
  | x :: xs, h => by
    simp only [concatStrs, String.data_append] at h
    rcases List.mem_append.mp h with h | h
    · exact ⟨x, by simp, h⟩
    · obtain ⟨s, hs, hc⟩ := mem_concatStrs xs h
      exact ⟨s, List.mem_cons_of_mem _ hs, hc⟩

theorem mem_stripEdgeNl {c : Char} (l : List Char) (h : c ∈ stripEdgeNl l) : c ∈ l := by
  unfold stripEdgeNl at h
  rw [List.mem_reverse] at h
  have h2 := (List.dropWhile_sublist _).subset h
  rw [List.mem_reverse] at h2
  exact (List.dropWhile_sublist _).subset h2

theorem normGo_member (segs : List (String × Bool)) :
    ∀ (buf out : List String) (s : String), s ∈ normGo segs buf out →
      s ∈ out ∨ (∃ b, s = String.mk (flushPasses b)) ∨ ∃ t, s = eolNorm t := by
  induction segs with
  | nil =>
    intro buf out s h
    simp only [normGo] at h
    rcases List.mem_append.mp h with h | h
    · exact Or.inl h
    · unfold flushBuf at h
      split at h
      · simp at h
      · simp only [List.mem_singleton] at h
        exact Or.inr (Or.inl ⟨_, h⟩)
  | cons seg r ih =>
    intro buf out s h
    obtain ⟨t, pre⟩ := seg
    cases pre with
    | true =>
      simp only [normGo] at h
      rcases ih _ _ _ h with h | h | h
      · rcases List.mem_append.mp h with h | h
        · rcases List.mem_append.mp h with h | h
          · exact Or.inl h
          · unfold flushBuf at h
            split at h
            · simp at h
            · simp only [List.mem_singleton] at h
              exact Or.inr (Or.inl ⟨_, h⟩)
        · simp only [List.mem_singleton] at h
          exact Or.inr (Or.inr ⟨_, h⟩)
      · exact Or.inr (Or.inl h)
      · exact Or.inr (Or.inr h)
    | false =>
      simp only [normGo] at h
      exact ih _ _ _ h

theorem dropWhile_head_false {p : Char → Bool} :
    ∀ (l : List Char) {c : Char}, ((l.dropWhile p).head? = some c) → p c = false := by
  intro l
  induction l with
  | nil => intro c h; simp at h
  | cons c0 r ih =>
    intro c h
    rw [List.dropWhile_cons] at h
    split at h
    · exact ih h
    · next hp =>
      simp only [List.head?_cons, Option.some.injEq] at h
      rw [← h]
      simpa using hp

theorem getLast?_dropWhile {p : Char → Bool} :
    ∀ (z : List Char) {c : Char}, ((z.dropWhile p).getLast? = some c) →
      z.getLast? = some c := by
  intro z
  induction z with
  | nil => intro c h; simp at h
  | cons c0 r ih =>
    intro c h
    rw [List.dropWhile_cons] at h
    split at h
    · have hr := ih h
      rcases r with _ | ⟨x, r2⟩
      · simp at hr
      · rw [List.getLast?_cons_cons]
        exact hr
    · exact h

theorem stripEdgeNl_getLast {l : List Char} {c : Char}
    (h : (stripEdgeNl l).getLast? = some c) : c ≠ '\n' := by
  unfold stripEdgeNl at h
  rw [List.getLast?_reverse] at h
  have := dropWhile_head_false _ h
  intro hc
  rw [hc] at this
  simp at this

theorem stripEdgeNl_head {l : List Char} {c : Char}
    (h : (stripEdgeNl l).head? = some c) : c ≠ '\n' := by
  unfold stripEdgeNl at h
  rw [List.head?_reverse] at h
  have h2 := getLast?_dropWhile _ h
  rw [List.getLast?_reverse] at h2
  have := dropWhile_head_false _ h2
  intro hc
  rw [hc] at this
  simp at this

/-- Claim C2: the normalizer concatenates each maximal run of consecutive
non-preformatted segments and applies the four cleaning passes to it, flushes
preformatted segments verbatim up to line-ending normalization whenever they
interrupt the buffering, and strips leading and trailing newlines from the
combined result; moreover the output contains no carriage return, starts and
ends with no newline, and cleaned normal text contains no three consecutive
newlines, no two adjacent horizontal whitespace characters, and no horizontal
whitespace adjacent to a newline. -/
theorem claim_C2 (segs : List (String × Bool)) :
    normalize_extracted_text segs =
      String.mk (stripEdgeNl (concatStrs ((groupSegs segs).map renderGroup)).data) ∧
    '\r' ∉ (normalize_extracted_text segs).data ∧
    (∀ c, (normalize_extracted_text segs).data.head? = some c → c ≠ '\n') ∧
    (∀ c, (normalize_extracted_text segs).data.getLast? = some c → c ≠ '\n') ∧
    (∀ t, hasTriple (flushPasses t) = false) ∧
    (∀ t, pairScan hwsPairP (flushPasses t) = false) ∧
    (∀ t, pairScan wsNlP (flushPasses t) = false) := by
  have hgroup : normGo segs [] [] = (groupSegs segs).map renderGroup := by
    rw [normGo_grouped segs [] []]
    simp
  refine ⟨?_, ?_, ?_, ?_, flushPasses_noTriple, flushPasses_noHwsPair, flushPasses_noWsNl⟩
  · unfold normalize_extracted_text
    rw [hgroup]
  · intro hmem
    have h1 : ('\r' : Char) ∈ stripEdgeNl (concatStrs (normGo segs [] [])).data := hmem
    have h2 := mem_stripEdgeNl _ h1
    obtain ⟨s, hs, hc⟩ := mem_concatStrs _ h2
    rcases normGo_member segs [] [] s hs with h | ⟨b, hb⟩ | ⟨t, ht⟩
    · simp at h
    · rw [hb] at hc
      exact noCR_flushPasses b hc
    · rw [ht] at hc
      exact noCR_eolNormCL t.data hc
  · intro c h
    exact stripEdgeNl_head h
  · intro c h
    exact stripEdgeNl_getLast h

theorem claim_C2_witness : ('a' : Char) ≠ '\n' :=
  (claim_C2 [("a\nb", false)]).2.2.1 'a' (by decide)

/-! ### C3: the navigation target returned by `parse_opf` -/

/-- Last valid manifest item flagged `nav`, as overwritten by the loop. -/
def navLastOf (items : List XmlElem) : Option String :=
  match (items.filter (fun it => itemValid it && itemIsNav it)).getLast? with
  | some it => some (itemHref it)
  | none => none

/-- Last valid manifest item with the NCX media type. -/
def ncxMediaLastOf (items : List XmlElem) : Option String :=
  match (items.filter (fun it => itemValid it && itemIsNcx it)).getLast? with
  | some it => some (itemHref it)
  | none => none

/-- Lookup in the finished manifest dict: last valid item with the id. -/
def manifestLastOf (items : List XmlElem) (k : String) : Option String :=
  match (items.filter (fun it => itemValid it && itemId it = k)).getLast? with
  | some it => some (itemHref it)
  | none => none

/-- The spine `toc` attribute override: whenever the attribute is non-empty
and resolves in the manifest, its target href (regardless of media type). -/
def tocOverrideOf (root : XmlElem) : Option String :=
  match spineElemOf root with
  | none => none
  | some sp =>
    let tocId := (xattr sp "toc").getD ""
    if tocId ≠ "" then manifestLastOf (manifestItems root) tocId else none

/-- Amended-claim navigation target: the last `nav`-flagged item's href if
one exists; otherwise the item referenced by the spine `toc` attribute
whenever present and resolvable (regardless of its media type); otherwise
the last NCX-media-typed item; otherwise none — resolved against the
package directory. -/
def amendedNavTarget (root : XmlElem) (opfPath : String) : Option String :=
  match navLastOf (manifestItems root) <|>
      (tocOverrideOf root <|> ncxMediaLastOf (manifestItems root)) with
  | some h => if h = "" then none else some (resolve_zip_path (pdirname opfPath) h)
  | none => none

/-- Selector following the claim's words: the `nav`-flagged item's href if
one exists; otherwise the item referenced by the spine `toc` attribute only
if that item is typed as NCX; otherwise any (the last) NCX-typed manifest
item; otherwise none. -/
def claimC3NavTarget (root : XmlElem) (opfPath : String) : Option String :=
  let items := manifestItems root
  let tocRef :=
    match spineElemOf root with
    | none => none
    | some sp =>
      let tocId := (xattr sp "toc").getD ""
      if tocId ≠ "" then
        match (items.filter (fun it => itemValid it && itemId it = tocId)).getLast? with
        | some it => if itemIsNcx it then some (itemHref it) else none
        | none => none
      else none
  match navLastOf items <|> (tocRef <|> ncxMediaLastOf items) with
  | some h => if h = "" then none else some (resolve_zip_path (pdirname opfPath) h)
  | none => none

theorem foldl_opt_char (p : XmlElem → Bool) (v : XmlElem → String) :
    ∀ (items : List XmlElem) (o : Option String),
      items.foldl (fun acc it => if p it then some (v it) else acc) o =
        (match (items.filter p).getLast? with
         | some it => some (v it)
         | none => o) := by
  intro items
  induction items with
  | nil => intro o; rfl
  | cons it rest ih =>
    intro o
    rw [List.foldl_cons, ih]
    by_cases hp : p it
    · rw [List.filter_cons_of_pos hp]
      rcases hL : (rest.filter p).getLast? with _ | x
      · have hnil : rest.filter p = [] := by
          cases hfp : rest.filter p with
          | nil => rfl
          | cons y ys =>
            rw [hfp] at hL
            simp at hL
        rw [hnil]
        simp [hp]
      · cases hfp : rest.filter p with
        | nil =>
          rw [hfp] at hL
          simp at hL
        | cons y ys =>
          rw [hfp] at hL
          rw [List.getLast?_cons_cons, hL]
    · rw [List.filter_cons_of_neg hp]
      rcases hL : (rest.filter p).getLast? with _ | x
      · simp [hp]
      · rfl

theorem opfFold_nav (items : List XmlElem) :
    ∀ (acc : OpfAcc), (items.foldl opfStep acc).nav =
      items.foldl
        (fun o it => if itemValid it && itemIsNav it then some (itemHref it) else o)
        acc.nav := by
  induction items with
  | nil => intro acc; rfl
  | cons it rest ih =>
    intro acc
    rw [List.foldl_cons, List.foldl_cons, ih]
    congr 1
    by_cases hv : itemValid it <;> by_cases hn : itemIsNav it <;>
      simp [opfStep, hv, hn]

theorem opfFold_ncx (items : List XmlElem) :
    ∀ (acc : OpfAcc), (items.foldl opfStep acc).ncx =
      items.foldl
        (fun o it => if itemValid it && itemIsNcx it then some (itemHref it) else o)
        acc.ncx := by
  induction items with
  | nil => intro acc; rfl
  | cons it rest ih =>
    intro acc
    rw [List.foldl_cons, List.foldl_cons, ih]
    congr 1
    by_cases hv : itemValid it <;> by_cases hn : itemIsNcx it <;>
      simp [opfStep, hv, hn]

theorem opfFold_manifest (items : List XmlElem) :
    ∀ (acc : OpfAcc) (k : String), (items.foldl opfStep acc).manifest k =
      items.foldl
        (fun o it => if itemValid it && itemId it = k then some (itemHref it) else o)
        (acc.manifest k) := by
  induction items with
  | nil => intro acc k; rfl
  | cons it rest ih =>
    intro acc k
    rw [List.foldl_cons, List.foldl_cons, ih]
    congr 1
    by_cases hv : itemValid it
    · by_cases hn : itemId it = k
      · simp [opfStep, hv, hn]
      · have hn2 : ¬(k = itemId it) := fun hh => hn hh.symm
        simp [opfStep, hv, hn, hn2]
    · simp [opfStep, hv]

theorem opfAcc_nav_eq (root : XmlElem) :
    ((manifestItems root).foldl opfStep ⟨fun _ => none, none, none⟩).nav =
      navLastOf (manifestItems root) := by
  rw [opfFold_nav, foldl_opt_char]
  rfl

theorem opfAcc_ncx_eq (root : XmlElem) :
    ((manifestItems root).foldl opfStep ⟨fun _ => none, none, none⟩).ncx =
      ncxMediaLastOf (manifestItems root) := by
  rw [opfFold_ncx, foldl_opt_char]
  rfl

theorem opfAcc_manifest_eq (root : XmlElem) (k : String) :
    ((manifestItems root).foldl opfStep ⟨fun _ => none, none, none⟩).manifest k =
      manifestLastOf (manifestItems root) k := by
  rw [opfFold_manifest, foldl_opt_char]
  rfl

/-- Claim C3 (amended): the navigation target returned by the package
parser is the href of the last manifest item whose properties contain
`nav` if one exists; otherwise the manifest item referenced by the spine's
`toc` attribute whenever that attribute is present and resolves in the
manifest, regardless of the referenced item's media type; otherwise the
last manifest item with media-type `application/x-dtbncx+xml`; otherwise
none — each resolved against the package document's directory. -/
theorem claim_C3 (root : XmlElem) (opfPath : String) :
    (parse_opf root opfPath).2 = amendedNavTarget root opfPath := by
  unfold parse_opf amendedNavTarget tocOverrideOf
  simp only [opfAcc_nav_eq, opfAcc_ncx_eq, opfAcc_manifest_eq]
  rcases hsp : spineElemOf root with _ | sp
  · simp
  · simp only
    by_cases htoc : (xattr sp "toc").getD "" = ""
    · simp [htoc]
    · rcases hman : manifestLastOf (manifestItems root) ((xattr sp "toc").getD "") with _ | h
      · simp [htoc, hman]
      · simp [htoc, hman]

def c3Opf : XmlElem :=
  .mk "package" [] none [
    .mk "manifest" [] none [
      .mk "item" [("id", "style1"), ("href", "style.css"), ("media-type", "text/css")] none [],
      .mk "item" [("id", "n"), ("href", "book.ncx"),
        ("media-type", "application/x-dtbncx+xml")] none []],
    .mk "spine" [("toc", "style1")] none []]

/-- Counterexample to claim C3 as stated: the spine `toc` attribute
references a CSS-typed item, so the claim's rule selects the NCX-typed
item's href, but the code returns the CSS href — the override never checks
the referenced item's media type. -/
theorem claim_C3_counterexample :
    (parse_opf c3Opf "book.opf").2 = some "style.css" ∧
    claimC3NavTarget c3Opf "book.opf" = some "book.ncx" ∧
    (parse_opf c3Opf "book.opf").2 ≠ claimC3NavTarget c3Opf "book.opf" := by
  refine ⟨by decide, by decide, by decide⟩


/-! ### Claim C6: characterization of the anchor selector -/

/-- First-occurrence de-duplication, as performed by the per-path
append-if-missing in the selector loop. -/
def dedupFirst (l : List String) : List String :=
  l.foldl (fun a g => if g ∈ a then a else a ++ [g]) []

/-- Fragments of the entries that pass the selector guards and resolve to
path `p`, in entry order. -/
def fragsFor (entries : List TocEntry) (p : String) : List String :=
  (entries.filter (fun e => anchorSel e && normpath e.path = p)).map
    (fun e => e.fragment)

/-- An empty fragment list is an absent dict key. -/
def optList (l : List String) : Option (List String) :=
  if l = [] then none else some l

theorem mem_foldl_dedup (l : List String) :
    ∀ (acc : List String) (f : String),
      f ∈ l.foldl (fun a g => if g ∈ a then a else a ++ [g]) acc ↔
        f ∈ acc ∨ f ∈ l := by
  induction l with
  | nil => intro acc f; simp
  | cons x xs ih =>
    intro acc f
    rw [List.foldl_cons]
    by_cases hx : x ∈ acc
    · rw [if_pos hx, ih]
      constructor
      · rintro (h | h)
        · exact Or.inl h
        · exact Or.inr (List.mem_cons_of_mem _ h)
      · rintro (h | h)
        · exact Or.inl h
        · rcases List.mem_cons.mp h with rfl | h
          · exact Or.inl hx
          · exact Or.inr h
    · rw [if_neg hx, ih]
      simp only [List.mem_append, List.mem_cons, List.mem_singleton]
      tauto

theorem selFold (entries : List TocEntry) :
    ∀ (m : String → Option (List String)) (p : String),
      (entries.foldl
        (fun acc e =>
          if anchorSel e then appendAnchor acc (normpath e.path) e.fragment
          else acc) m) p =
      if fragsFor entries p = [] then m p
      else some ((fragsFor entries p).foldl
        (fun a g => if g ∈ a then a else a ++ [g]) ((m p).getD [])) := by
  induction entries with
  | nil => intro m p; simp [fragsFor]
  | cons e rest ih =>
    intro m p
    rw [List.foldl_cons]
    by_cases hsel : anchorSel e = true
    · by_cases hp : normpath e.path = p
      · have hfr : fragsFor (e :: rest) p = e.fragment :: fragsFor rest p := by
          simp [fragsFor, List.filter_cons, hsel, hp]
        have hm' : appendAnchor m (normpath e.path) e.fragment p =
            some (if e.fragment ∈ (m p).getD [] then (m p).getD []
                  else (m p).getD [] ++ [e.fragment]) := by
          simp [appendAnchor, hp]
        rw [if_pos hsel, ih, hfr]
        by_cases hrest : fragsFor rest p = []
        · rw [if_pos hrest, hm']
          simp [hrest]
        · rw [if_neg hrest, hm']
          simp [hrest, List.foldl_cons]
      · have hfr : fragsFor (e :: rest) p = fragsFor rest p := by
          simp [fragsFor, List.filter_cons, hsel, hp]
        have hm' : appendAnchor m (normpath e.path) e.fragment p = m p := by
          have : ¬(p = normpath e.path) := fun h => hp h.symm
          simp [appendAnchor, this]
        rw [if_pos hsel, ih, hfr, hm']
    · have hfr : fragsFor (e :: rest) p = fragsFor rest p := by
        simp [fragsFor, List.filter_cons, hsel]
      rw [if_neg hsel, ih, hfr]

theorem optList_getD (l : List String) : (optList l).getD [] = l := by
  unfold optList
  split
  · simp_all
  · rfl

theorem dedupFirst_ne_nil (l : List String) (h : l ≠ []) : dedupFirst l ≠ [] := by
  rcases List.exists_mem_of_ne_nil _ h with ⟨g, hg⟩
  intro hnil
  have hmem := (mem_foldl_dedup l [] g).mpr (Or.inr hg)
  unfold dedupFirst at hnil
  rw [hnil] at hmem
  exact absurd hmem (List.not_mem_nil g)

/-- Claim C6: for every TocEntry sequence, the anchor selector's output at
a path `p` is exactly the first-occurrence-deduplicated, entry-ordered
list of the fragments of the depth-1, HTML-extension, non-empty-fragment
entries resolving to `p` (absent key when that list is empty); a fragment
is in the map at `p` exactly when such an entry exists; and an empty entry
sequence yields the empty map. -/
theorem claim_C6 (entries : List TocEntry) (p : String) :
    select_toc_chapter_anchors entries p =
      optList (dedupFirst (fragsFor entries p)) ∧
    (∀ f, f ∈ (select_toc_chapter_anchors entries p).getD [] ↔
      ∃ e, e ∈ entries ∧ e.depth = 1 ∧ htmlExt e.path = true ∧
        e.fragment = f ∧ f ≠ "" ∧ normpath e.path = p) ∧
    (entries = [] → select_toc_chapter_anchors entries p = none) := by
  have hchar : select_toc_chapter_anchors entries p =
      optList (dedupFirst (fragsFor entries p)) := by
    unfold select_toc_chapter_anchors
    by_cases he : entries = []
    · subst he; simp [fragsFor, dedupFirst, optList]
    · rw [if_neg he, selFold]
      by_cases hf : fragsFor entries p = []
      · simp [hf, optList, dedupFirst]
      · rw [if_neg hf]
        unfold optList
        rw [if_neg (dedupFirst_ne_nil _ hf)]
        rfl
  refine ⟨hchar, ?_, ?_⟩
  · intro f
    rw [hchar, optList_getD]
    unfold dedupFirst
    rw [mem_foldl_dedup]
    simp only [List.not_mem_nil, false_or]
    unfold fragsFor
    simp only [List.mem_map, List.mem_filter, Bool.and_eq_true,
      decide_eq_true_eq, anchorSel]
    constructor
    · rintro ⟨e, ⟨hmem, ⟨⟨⟨hd, hh⟩, hne⟩, hp⟩⟩, hfr⟩
      subst hfr
      exact ⟨e, hmem, hd, hh, rfl, hne, hp⟩
    · rintro ⟨e, hmem, hd, hh, hfr, hne, hp⟩
      subst hfr
      exact ⟨e, ⟨hmem, ⟨⟨⟨hd, hh⟩, hne⟩, hp⟩⟩, rfl⟩
  · intro he
    subst he
    rfl

/-- Witness for C6 at a concrete entry list: style-sheet paths and deeper
entries are dropped, `./a.html` normalizes onto `a.html`, and the repeated
fragment is de-duplicated. -/
theorem claim_C6_witness :
    (select_toc_chapter_anchors
        [⟨"a.html", "f1", "T1", 1⟩, ⟨"b.css", "g", "T2", 1⟩,
         ⟨"a.html", "f1", "T3", 1⟩, ⟨"./a.html", "f3", "T4", 1⟩,
         ⟨"a.html", "h", "T5", 2⟩] "a.html" =
      optList (dedupFirst (fragsFor
        [⟨"a.html", "f1", "T1", 1⟩, ⟨"b.css", "g", "T2", 1⟩,
         ⟨"a.html", "f1", "T3", 1⟩, ⟨"./a.html", "f3", "T4", 1⟩,
         ⟨"a.html", "h", "T5", 2⟩] "a.html"))) ∧
    select_toc_chapter_anchors
        [⟨"a.html", "f1", "T1", 1⟩, ⟨"b.css", "g", "T2", 1⟩,
         ⟨"a.html", "f1", "T3", 1⟩, ⟨"./a.html", "f3", "T4", 1⟩,
         ⟨"a.html", "h", "T5", 2⟩] "a.html" = some ["f1", "f3"] :=
  ⟨(claim_C6
      [⟨"a.html", "f1", "T1", 1⟩, ⟨"b.css", "g", "T2", 1⟩,
       ⟨"a.html", "f1", "T3", 1⟩, ⟨"./a.html", "f3", "T4", 1⟩,
       ⟨"a.html", "h", "T5", 2⟩] "a.html").1, by decide⟩


/-! ### Claim C5: domain of the anchor map -/

theorem fragsFor_ne_nil_iff (entries : List TocEntry) (p : String) :
    fragsFor entries p ≠ [] ↔
      ∃ e, e ∈ entries ∧ e.depth = 1 ∧ htmlExt e.path = true ∧
        e.fragment ≠ "" ∧ normpath e.path = p := by
  constructor
  · intro h
    rcases List.exists_mem_of_ne_nil _ h with ⟨f, hf⟩
    unfold fragsFor at hf
    simp only [List.mem_map, List.mem_filter, Bool.and_eq_true,
      decide_eq_true_eq, anchorSel] at hf
    rcases hf with ⟨e, ⟨hmem, ⟨⟨⟨hd, hh⟩, hne⟩, hp⟩⟩, _⟩
    exact ⟨e, hmem, hd, hh, hne, hp⟩
  · rintro ⟨e, hmem, hd, hh, hne, hp⟩
    intro hnil
    have hf : e.fragment ∈ fragsFor entries p := by
      unfold fragsFor
      exact List.mem_map.mpr ⟨e, List.mem_filter.mpr ⟨hmem, by
        simp [anchorSel, hd, hh, hne, hp]⟩, rfl⟩
    rw [hnil] at hf
    exact absurd hf (List.not_mem_nil _)

theorem select_anchors_isSome (entries : List TocEntry) (p : String) :
    (select_toc_chapter_anchors entries p).isSome = true ↔
      ∃ e, e ∈ entries ∧ e.depth = 1 ∧ htmlExt e.path = true ∧
        e.fragment ≠ "" ∧ normpath e.path = p := by
  rw [← fragsFor_ne_nil_iff]
  unfold select_toc_chapter_anchors
  by_cases he : entries = []
  · subst he
    simp [fragsFor]
  · rw [if_neg he, selFold]
    by_cases hf : fragsFor entries p = []
    · simp [hf]
    · simp [hf]

/-- The C5 counterexample archive: the package spine references only
`ch1.html`, but the nav document's single TOC link targets
`other.html#f`, a path outside the spine. -/
def c5Toc : HNode :=
  .elem "html" [] [.elem "body" [] [
    .elem "nav" [("epub:type", "toc")] [
      .elem "ol" [] [
        .elem "li" [] [.elem "a" [("href", "other.html#f")] [.text "Other"]]]]]]

def c5Ch : HNode :=
  .elem "html" [] [.elem "body" [] [.elem "p" [] [.text "Body"]]]

def c5Opf : XmlElem :=
  .mk "package" [] none [
    .mk "manifest" [] none [
      .mk "item" [("id", "navd"), ("href", "toc.xhtml"), ("properties", "nav")] none [],
      .mk "item" [("id", "c"), ("href", "ch1.html")] none []],
    .mk "spine" [] none [
      .mk "itemref" [("idref", "c")] none []]]

def c5Container : XmlElem :=
  .mk ("\x7burn:oasis:names:tc:opendocument:xmlns:container\x7d" ++ "container") [] none [
    .mk ("\x7burn:oasis:names:tc:opendocument:xmlns:container\x7d" ++ "rootfiles") [] none [
      .mk ("\x7burn:oasis:names:tc:opendocument:xmlns:container\x7d" ++ "rootfile")
        [("full-path", "book.opf")] none []]]

def c5Doc : HNode := .elem "[document]" [] []

def c5Archive : List ZipEntry :=
  [⟨"META-INF/container.xml", some c5Container, c5Doc⟩,
   ⟨"book.opf", some c5Opf, c5Doc⟩,
   ⟨"toc.xhtml", none, c5Toc⟩,
   ⟨"ch1.html", none, c5Ch⟩]

/-- Counterexample to claim C5 as stated: the anchor map of `c5Archive`
holds an entry for `other.html`, a path that is not among the spine's
files (`ch1.html` only) — the selector never consults the spine. -/
theorem claim_C5_counterexample :
    orderedFilesOf c5Archive = some ["ch1.html"] ∧
    chapterAnchorsOf c5Archive "other.html" = some ["f"] ∧
    "other.html" ∉ ["ch1.html"] := by
  refine ⟨by decide, by decide, by decide⟩

/-- Claim C5 corrected: the anchor map's domain is determined by the
parsed TOC entries alone — a path `p` is a key exactly when some TOC entry
has depth 1, an HTML-family extension, a non-empty fragment, and resolves
to `p` — with no restriction to the spine's files. -/
theorem claim_C5 (ar : List ZipEntry) (st : List String × Option String)
    (h : spineAndToc ar = some st) (p : String) :
    (chapterAnchorsOf ar p).isSome = true ↔
      ∃ e, e ∈ parse_toc_entries ar st.2 ∧ e.depth = 1 ∧ htmlExt e.path = true ∧
        e.fragment ≠ "" ∧ normpath e.path = p := by
  unfold chapterAnchorsOf
  rw [h]
  exact select_anchors_isSome _ p

/-- Witness for the corrected C5 at the counterexample archive: the key
`other.html` is present because the depth-1 TOC entry targeting
`other.html#f` exists, spine notwithstanding. -/
theorem claim_C5_witness :
    spineAndToc c5Archive = some (["ch1.html"], some "toc.xhtml") ∧
    ((chapterAnchorsOf c5Archive "other.html").isSome = true ↔
      ∃ e, e ∈ parse_toc_entries c5Archive (some "toc.xhtml") ∧ e.depth = 1 ∧
        htmlExt e.path = true ∧ e.fragment ≠ "" ∧ normpath e.path = "other.html") :=
  ⟨by decide, claim_C5 c5Archive (["ch1.html"], some "toc.xhtml") (by decide) "other.html"⟩


/-! ### Claim C4: empty-spine fallback -/

/-- The C4 counterexample archive: the package spine is empty, the nav
item `toc.xhtml` links to `ch.html#a`, and `ch.html` holds a paragraph
followed by the `h2` with id `a`. -/
def c4Toc : HNode :=
  .elem "html" [] [.elem "body" [] [
    .elem "nav" [("epub:type", "toc")] [
      .elem "ol" [] [
        .elem "li" [] [.elem "a" [("href", "ch.html#a")] [.text "Ch A"]]]]]]

def c4Ch : HNode :=
  .elem "html" [] [.elem "body" [] [
    .elem "p" [] [.text "Intro"],
    .elem "h2" [("id", "a")] [.text "Chapter A"]]]

def c4Opf : XmlElem :=
  .mk "package" [] none [
    .mk "manifest" [] none [
      .mk "item" [("id", "navd"), ("href", "toc.xhtml"), ("properties", "nav")] none [],
      .mk "item" [("id", "c"), ("href", "ch.html")] none []],
    .mk "spine" [] none []]

def c4Container : XmlElem :=
  .mk ("\x7burn:oasis:names:tc:opendocument:xmlns:container\x7d" ++ "container") [] none [
    .mk ("\x7burn:oasis:names:tc:opendocument:xmlns:container\x7d" ++ "rootfiles") [] none [
      .mk ("\x7burn:oasis:names:tc:opendocument:xmlns:container\x7d" ++ "rootfile")
        [("full-path", "book.opf")] none []]]

def c4Doc : HNode := .elem "[document]" [] []

def c4Archive : List ZipEntry :=
  [⟨"META-INF/container.xml", some c4Container, c4Doc⟩,
   ⟨"book.opf", some c4Opf, c4Doc⟩,
   ⟨"toc.xhtml", none, c4Toc⟩,
   ⟨"ch.html", none, c4Ch⟩]

/-- Counterexample to claim C4 as stated: on an archive whose spine
resolves to zero entries, the fallback file `ch.html` is still consulted
against the anchor map — its anchor list is non-empty and its chapter text
contains an anchor-driven chapter separator — so anchor-driven splitting is
not disabled in fallback mode. -/
theorem claim_C4_counterexample :
    spineAndToc c4Archive = some ([], some "toc.xhtml") ∧
    orderedFilesOf c4Archive = some ["ch.html", "toc.xhtml"] ∧
    anchorIdsFor (chapterAnchorsOf c4Archive) "ch.html" = ["a"] ∧
    processFile c4Archive (chapterAnchorsOf c4Archive) "ch.html" =
      some "Intro\n\n---\n\n## Chapter A" := by
  refine ⟨by decide, by decide, by decide, by decide⟩

/-- Claim C4 corrected: when the spine resolves to zero entries, the
assembler processes every HTML-family archive entry sorted by name as the
spine, but each such file is still processed against the unchanged anchor
map — anchor-driven splitting is not disabled. -/
theorem claim_C4 (ar : List ZipEntry) (st : List String × Option String)
    (h : spineAndToc ar = some st) (hempty : st.1 = []) (timestamp : String) :
    orderedFilesOf ar = some (sortStrs ((namelist ar).filter htmlExt)) ∧
    (sortStrs ((namelist ar).filter htmlExt) ≠ [] →
      epub_to_text ar timestamp =
        (let chunks := (sortStrs ((namelist ar).filter htmlExt)).filterMap
          (processFile ar (chapterAnchorsOf ar))
         .ok (String.join (chunks.map (fun c => c ++ chapterSeparator)) ++
           (if chunks = [] then "\n\n" else "") ++ footerLines ++
           "Converted at: " ++ timestamp ++ "\n"))) := by
  constructor
  · unfold orderedFilesOf
    rw [h]
    simp [hempty]
  · intro hne
    unfold epub_to_text chapterAnchorsOf
    rw [h]
    simp only [hempty, if_true]
    rw [if_neg hne]

/-- Witness for the corrected C4 at the counterexample archive. -/
theorem claim_C4_witness :
    spineAndToc c4Archive = some ([], some "toc.xhtml") ∧
    orderedFilesOf c4Archive = some (sortStrs ((namelist c4Archive).filter htmlExt)) :=
  ⟨by decide,
   (claim_C4 c4Archive ([], some "toc.xhtml") (by decide) rfl "TS").1⟩


/-! ### Claim C7: tolerance of the TOC parsers -/

/-- Claim C7: every degraded input to TOC parsing yields an entry list
(usually empty) instead of a failure: no navigation target, an empty
target path, a target missing from the archive, unparseable NCX XML, NCX
without a navMap, an HTML navigation document with no nav element, and a
nav element with no ol/ul list. -/
theorem claim_C7 (ar : List ZipEntry) (p tocDir : String) (doc : HNode)
    (root : XmlElem) :
    parse_toc_entries ar none = [] ∧
    parse_toc_entries ar (some "") = [] ∧
    (p ≠ "" → zipRead ar p = none → parse_toc_entries ar (some p) = []) ∧
    parse_ncx_toc_entries none tocDir = [] ∧
    ((root :: xmlDescendants root).find? (fun e => localName e = "navMap") = none →
      parse_ncx_toc_entries (some root) tocDir = []) ∧
    (findNavElem doc = none → parse_nav_toc_entries doc tocDir = []) ∧
    (∀ nav, findNavElem doc = some nav →
      (hDescendants nav).find? (fun n => isNamed "ol" n || isNamed "ul" n) = none →
      parse_nav_toc_entries doc tocDir = []) := by
  refine ⟨rfl, rfl, ?_, rfl, ?_, ?_, ?_⟩
  · intro hp hz
    simp [parse_toc_entries, hp, hz]
  · intro h
    unfold parse_ncx_toc_entries
    simp only [h]
  · intro h
    unfold parse_nav_toc_entries
    simp only [h]
  · intro nav h1 h2
    unfold parse_nav_toc_entries
    simp only [h1, h2]

/-- Witness for C7: a missing archive entry and a nav element with no list
both yield the empty entry sequence. -/
theorem claim_C7_witness :
    parse_toc_entries [] (some "missing.ncx") = [] ∧
    parse_nav_toc_entries
      (.elem "html" [] [.elem "body" [] [
        .elem "nav" [("epub:type", "toc")] [.text "empty"]]]) "" = [] :=
  ⟨(claim_C7 [] "missing.ncx" ""
      (.elem "html" [] [.elem "body" [] [
        .elem "nav" [("epub:type", "toc")] [.text "empty"]]])
      (.mk "ncx" [] none [])).2.2.1 (by decide) rfl,
   (claim_C7 [] "missing.ncx" ""
      (.elem "html" [] [.elem "body" [] [
        .elem "nav" [("epub:type", "toc")] [.text "empty"]]])
      (.mk "ncx" [] none [])).2.2.2.2.2.2
     (.elem "nav" [("epub:type", "toc")] [.text "empty"]) rfl rfl⟩


/-! ### Claim C8: determinism up to the timestamp -/

/-- Claim C8: two conversions of the same archive differ only in the
timestamp interpolated into the final `Converted at:` line — errors are
identical, and successful outputs share a common leading stream followed
by `Converted at: <timestamp>\n`. -/
theorem claim_C8 (ar : List ZipEntry) (t1 t2 : String) :
    (∀ e1, epub_to_text ar t1 = .error e1 → epub_to_text ar t2 = .error e1) ∧
    (∀ o1, epub_to_text ar t1 = .ok o1 →
      ∃ common, o1 = common ++ "Converted at: " ++ t1 ++ "\n" ∧
        epub_to_text ar t2 = .ok (common ++ "Converted at: " ++ t2 ++ "\n")) := by
  unfold epub_to_text
  rcases spineAndToc ar with _ | st
  · constructor
    · intro e1 h
      exact h
    · intro o1 h
      exact absurd h (by simp)
  · by_cases hof : (if st.1 = [] then sortStrs ((namelist ar).filter htmlExt) else st.1) = []
    · constructor
      · intro e1 h
        simp only [hof, if_true] at h ⊢
        exact h
      · intro o1 h
        simp only [hof, if_true] at h
        exact absurd h (by simp)
    · constructor
      · intro e1 h
        simp only [if_neg hof] at h
        exact absurd h (by simp)
      · intro o1 h
        simp only [if_neg hof] at h ⊢
        exact ⟨_, (Except.ok.inj h).symm, rfl⟩

/-- Witness for C8: the empty archive errors identically under both
timestamps, and the C4 archive's output under `T1` splits as a common
stream plus the timestamp line, re-emitted with `T2`. -/
theorem claim_C8_witness :
    epub_to_text [] "T2" = .error "Failed to parse EPUB structure" ∧
    ∃ common,
      "Intro\n\n---\n\n## Chapter A\n\n---\n\n- Ch A\n\n---\n\nFile converted by epub2txt\nhttps://github.com/SPACESODA/epub2txt\nConverted at: T1\n" =
        common ++ "Converted at: " ++ "T1" ++ "\n" ∧
      epub_to_text c4Archive "T2" = .ok (common ++ "Converted at: " ++ "T2" ++ "\n") :=
  ⟨(claim_C8 [] "T1" "T2").1 "Failed to parse EPUB structure" rfl,
   (claim_C8 c4Archive "T1" "T2").2
     "Intro\n\n---\n\n## Chapter A\n\n---\n\n- Ch A\n\n---\n\nFile converted by epub2txt\nhttps://github.com/SPACESODA/epub2txt\nConverted at: T1\n"
     rfl⟩


/-! ### Claim C9: unresolvable anchor fragments are skipped -/

mutual

theorem insertAtNode_nil : ∀ (n : HNode) (p : List Nat), insertAtNode [] n p = n
  | .text s, _ => rfl
  | .elem nm at_ cs, p => by
    unfold insertAtNode
    rw [insertAtKids_nil cs p 0]

theorem insertAtKids_nil : ∀ (cs : List HNode) (p : List Nat) (i : Nat),
    insertAtKids [] cs p i = cs
  | [], _, _ => rfl
  | c :: cs, p, i => by
    unfold insertAtKids
    rw [insertAtNode_nil c (p ++ [i]), insertAtKids_nil cs p (i + 1)]
    simp [List.contains]

end

theorem anchorTargets_skip (doc : HNode) (aid : String)
    (hr : resolveAnchor doc aid = none) (ids : List String) :
    anchorTargets doc ids = anchorTargets doc (ids.filter (fun x => x ≠ aid)) := by
  unfold anchorTargets
  suffices hgen : ∀ (l : List String) (seen : List (List Nat)),
      l.foldl
        (fun seen a =>
          match resolveAnchor doc a with
          | none => seen
          | some p => if seen.contains p then seen else seen ++ [p]) seen =
      (l.filter (fun x => x ≠ aid)).foldl
        (fun seen a =>
          match resolveAnchor doc a with
          | none => seen
          | some p => if seen.contains p then seen else seen ++ [p]) seen by
    exact hgen ids []
  intro l
  induction l with
  | nil => intro seen; rfl
  | cons y ys ih =>
    intro seen
    rw [List.filter_cons]
    by_cases hy : y = aid
    · subst hy
      rw [List.foldl_cons]
      have hyb : (decide ¬(y = y)) = false := by simp
      simp only [hr, ne_eq, hyb, Bool.false_eq_true, if_false]
      exact ih seen
    · have hyb : (decide ¬(y = aid)) = true := by simp [hy]
      simp only [ne_eq, hyb, if_true, List.foldl_cons]
      exact ih _

/-- Claim C9: an anchor fragment that resolves to no node (no element with
that id and none with that name attribute) contributes nothing: removing
every occurrence of it from the fragment list leaves the marker insertion
unchanged, and the remaining fragments are processed in order. -/
theorem claim_C9 (doc : HNode) (ids : List String) (aid : String)
    (h : findTargetPos doc aid = none) :
    insert_anchor_markers doc ids =
      insert_anchor_markers doc (ids.filter (fun x => x ≠ aid)) := by
  have hr : resolveAnchor doc aid = none := by
    unfold resolveAnchor
    by_cases ha : aid = ""
    · rw [if_pos ha]
    · rw [if_neg ha, h]
  unfold insert_anchor_markers
  by_cases hids : ids = []
  · subst hids
    rfl
  · rw [if_neg hids]
    by_cases hf : ids.filter (fun x => x ≠ aid) = []
    · rw [if_pos hf]
      have hat : anchorTargets doc ids = [] := by
        rw [anchorTargets_skip doc aid hr ids, hf]
        rfl
      rw [hat]
      exact insertAtNode_nil doc []
    · rw [if_neg hf, anchorTargets_skip doc aid hr ids]

/-- Witness for C9: the fragment `missing` resolves to no node of the
document, so dropping it (keeping `x`) leaves the insertion unchanged. -/
theorem claim_C9_witness :
    (["missing", "x"].filter (fun s => s ≠ "missing")) = ["x"] ∧
    insert_anchor_markers
      (.elem "html" [] [.elem "body" [] [.elem "p" [("id", "x")] [.text "X"]]])
      ["missing", "x"] =
    insert_anchor_markers
      (.elem "html" [] [.elem "body" [] [.elem "p" [("id", "x")] [.text "X"]]])
      (["missing", "x"].filter (fun s => s ≠ "missing")) :=
  ⟨by decide,
   claim_C9
     (.elem "html" [] [.elem "body" [] [.elem "p" [("id", "x")] [.text "X"]]])
     ["missing", "x"] "missing" rfl⟩


/-! ### Claim C10: empty headings fall back to generic blocks -/

/-- Claim C10: a non-preformatted heading element (`h1`–`h6`) whose
flattened, whitespace-collapsed text is empty emits no `#`-prefixed
heading segment and marks no content: the walk treats it as a generic
block — newline before, children recursed with unchanged state flags,
newline after. -/
theorem claim_C10 (st : WalkSt) (d : Nat) (nm0 : String)
    (at_ : List (String × String)) (cs : List HNode) (lvl : Nat)
    (hh : headingLevel (lowerStr nm0) = some lvl)
    (hte : getTextSp (.elem nm0 at_ cs) = "") :
    walkNode st false d (.elem nm0 at_ cs) =
      addText (walkNodes (addText st "\n" false false) false d cs) "\n" false false := by
  have hnm : lowerStr nm0 = "h1" ∨ lowerStr nm0 = "h2" ∨ lowerStr nm0 = "h3" ∨
      lowerStr nm0 = "h4" ∨ lowerStr nm0 = "h5" ∨ lowerStr nm0 = "h6" := by
    by_cases h1 : lowerStr nm0 = "h1"
    · exact Or.inl h1
    · by_cases h2 : lowerStr nm0 = "h2"
      · exact Or.inr (Or.inl h2)
      · by_cases h3 : lowerStr nm0 = "h3"
        · exact Or.inr (Or.inr (Or.inl h3))
        · by_cases h4 : lowerStr nm0 = "h4"
          · exact Or.inr (Or.inr (Or.inr (Or.inl h4)))
          · by_cases h5 : lowerStr nm0 = "h5"
            · exact Or.inr (Or.inr (Or.inr (Or.inr (Or.inl h5))))
            · by_cases h6 : lowerStr nm0 = "h6"
              · exact Or.inr (Or.inr (Or.inr (Or.inr (Or.inr h6))))
              · unfold headingLevel at hh
                rw [if_neg h1, if_neg h2, if_neg h3, if_neg h4, if_neg h5,
                  if_neg h6] at hh
                exact Option.noConfusion hh
  rcases hnm with h | h | h | h | h | h <;>
    simp [walkNode, h, hte, SKIP_TAGS, PRE_TAGS, BLOCK_TAGS, anchorMarkerTag,
      headingLevel, List.contains, List.elem]

/-- Witness for C10: an `h2` whose only child is whitespace text is walked
as a generic block and produces exactly the two newline segments around
the recursed (empty) child text. -/
theorem claim_C10_witness :
    headingLevel (lowerStr "h2") = some 2 ∧
    getTextSp (.elem "h2" [] [.text "  "]) = "" ∧
    walkNode initWalkSt false 0 (.elem "h2" [] [.text "  "]) =
      addText (walkNodes (addText initWalkSt "\n" false false) false 0
        [.text "  "]) "\n" false false :=
  ⟨by decide, by decide,
   claim_C10 initWalkSt 0 "h2" [] [.text "  "] 2 (by decide) (by decide)⟩

end Epub2Txt
